import Mathlib

set_option maxRecDepth 1000000

/-!
Shallow embedding of the employee shift scheduler
(`src/python_app/scheduler.py`): preference normalization
(`collect_employee_preferences`), the deterministic Fisher-Yates
tie-breaker (`deterministic_shuffle`) and the assignment engine
(`generate_schedule`), together with theorems settling the
specification claims about them.  Error messages are abbreviated; the
claims depend only on the error kind, never on the message text.
-/

namespace Scheduler

/-- Python runtime values, as far as the scheduler inspects them:
`None`, strings, integers, lists, and dicts (modelled as ordered
association lists of key-value pairs, mirroring insertion order). -/
inductive PyVal where
  | pyNone : PyVal
  | pyStr (s : String) : PyVal
  | pyInt (n : Int) : PyVal
  | pyList (xs : List PyVal) : PyVal
  | pyDict (kvs : List (PyVal × PyVal)) : PyVal

/-- Errors surfaced by the core.  Every `raise ValueError` site in
`collect_employee_preferences` is an `invalidInput`; the
fewer-than-six-employees `raise ValueError` in `generate_schedule` is
`insufficientStaff`; `attributeError` models the `AttributeError` Python
raises at line 31 when a top-level dict key is not a string (that line
runs before any per-employee `ValueError` check). -/
inductive SchedErr where
  | invalidInput (msg : String) : SchedErr
  | insufficientStaff (msg : String) : SchedErr
  | attributeError : SchedErr
deriving DecidableEq, Repr

def SchedErr.isInvalidInput : SchedErr → Bool
  | .invalidInput _ => true
  | _ => false

def SchedErr.isInsufficientStaff : SchedErr → Bool
  | .insufficientStaff _ => true
  | _ => false

/-- `DAYS_OF_WEEK` from scheduler.py line 5. -/
def DAYS_OF_WEEK : List String :=
  ["Monday", "Tuesday", "Wednesday", "Thursday", "Friday", "Saturday", "Sunday"]

/-- `VALID_SHIFTS` from scheduler.py line 6. -/
def VALID_SHIFTS : List String := ["morning", "afternoon", "evening"]

/-- Leading-whitespace removal on a character list. -/
def dropWs (cs : List Char) : List Char := cs.dropWhile Char.isWhitespace

/-- Python `str.strip()`: remove leading and trailing whitespace
(structural implementation so that proofs can evaluate it). -/
def pyStrip (s : String) : String :=
  String.mk ((dropWs ((dropWs s.data).reverse)).reverse)

/-- Python `str.lower()` (the identifiers involved are ASCII, where
per-character lowering matches Python). -/
def pyLower (s : String) : String := String.mk (s.data.map Char.toLower)

/-- Python `s.strip().lower()` (line 31). -/
def stripLower (s : String) : String := pyLower (pyStrip s)

/-- Python `s.lower().strip()` (lines 52 and 75). -/
def lowerStrip (s : String) : String := pyStrip (pyLower s)

/-- Monadic map over `Except`, written as a plain recursion (the same
short-circuiting behavior as a Python loop that may raise). -/
def exMap (f : α → Except ε β) : List α → Except ε (List β)
  | [] => .ok []
  | x :: xs => do
    let y ← f x
    let ys ← exMap f xs
    pure (y :: ys)

/-- Monadic fold over `Except`, written as a plain recursion. -/
def exFoldl (f : σ → α → Except ε σ) : σ → List α → Except ε σ
  | acc, [] => .ok acc
  | acc, x :: xs => do
    let acc' ← f acc x
    exFoldl f acc' xs

/-- Stable insertion into a sorted list: `x` is placed after every
element `y` with `le y x`. -/
def stableInsert (le : α → α → Bool) (x : α) : List α → List α
  | [] => [x]
  | y :: ys => if le y x then y :: stableInsert le x ys else x :: y :: ys

/-- Stable ascending sort (the semantics of Python `sorted` for a
total preorder `le`), implemented structurally so proofs can evaluate
it. -/
def stableSort (le : α → α → Bool) (l : List α) : List α :=
  l.foldl (fun acc x => stableInsert le x acc) []

/-- One xorshift step of the seeded generator inside
`deterministic_shuffle` (lines 13-18).  The Python seed stays a
non-negative integer below 2^32 (left shifts are masked with
`0xFFFFFFFF` and the right shift cannot enlarge it), so the Python
`abs` is the identity and `Nat` models the arithmetic exactly. -/
def xorshiftStep (s : Nat) : Nat :=
  let s1 := s ^^^ ((s <<< 13) % 4294967296)
  let s2 := s1 ^^^ (s1 >>> 17)
  s2 ^^^ ((s2 <<< 5) % 4294967296)

/-- The swap `arr[m], arr[i] = arr[i], arr[m]` (line 23). -/
def swapL (l : List α) (a b : Nat) : List α :=
  match l[a]?, l[b]? with
  | some x, some y => (l.set a y).set b x
  | _, _ => l

/-- The Fisher-Yates loop of `deterministic_shuffle` (lines 19-23):
`m` counts down from the length, each round draws
`i = int(pseudo_random() * m)`, that is `(seed % 1000) * m / 1000`
with the freshly advanced seed, and swaps positions `m-1` and `i`. -/
def fyLoop (l : List α) (s : Nat) : Nat → List α
  | 0 => l
  | m + 1 =>
    let s' := xorshiftStep s
    let i := (s' % 1000) * (m + 1) / 1000
    fyLoop (swapL l m i) s' m

/-- `deterministic_shuffle` (lines 10-24) with its default seed 1. -/
def deterministic_shuffle (l : List α) : List α := fyLoop l 1 l.length

/-- Python dict assignment `m[k] = v` on an insertion-ordered dict:
overwrite in place if the key exists, otherwise append. -/
def dictSet (m : List (String × α)) (k : String) (v : α) : List (String × α) :=
  match m with
  | [] => [(k, v)]
  | (k', v') :: rest =>
    if k' = k then (k', v) :: rest else (k', v') :: dictSet rest k v

/-- Association-list lookup, i.e. Python `m[k]` / `k in m` on dicts
keyed by strings. -/
def dictGet (m : List (String × α)) (k : String) : Option α :=
  match m with
  | [] => none
  | (k', v') :: rest => if k' = k then some v' else dictGet rest k

/-- Membership test `"Monday" in day_map` for a dict with `PyVal` keys
(Python `in` compares with `==`, so a non-string key never equals a
string). -/
def PyVal.eqStr : PyVal → String → Bool
  | .pyStr s, k => s == k
  | _, _ => false

def pyDictHasKey (kvs : List (PyVal × PyVal)) (k : String) : Bool :=
  kvs.any (fun kv => kv.1.eqStr k)

/-- Lexicographic code-point comparison of character lists — Python's
string ordering. -/
def charListLe : List Char → List Char → Bool
  | [], _ => true
  | _ :: _, [] => false
  | c :: cs, d :: ds =>
    if c.toNat < d.toNat then true
    else if d.toNat < c.toNat then false
    else charListLe cs ds

/-- Python string comparison `a <= b` (lexicographic by code point). -/
def strLe (a b : String) : Bool := charListLe a.data b.data

/-- The comparator of `sorted(priorities.items(), key=lambda x: (x[1], x[0]))`
(lines 61 and 91): lexicographic on (priority, shift name).
`stableSort` is stable, like Python `sorted`. -/
def prioLe (a b : String × Int) : Bool :=
  decide (a.2 < b.2) || (decide (a.2 = b.2) && strLe a.1 b.1)

/-- Sort priority items and keep the shift names
(`[item[0] for item in sorted_arr]`). -/
def sortByPriority (items : List (String × Int)) : List String :=
  (stableSort prioLe items).map Prod.fst

/-- `sorted(VALID_SHIFTS)` (line 49). -/
def sortedValidShifts : List String :=
  stableSort strLe VALID_SHIFTS

/-- Whether a Python value is a string naming a valid shift, verbatim
(the membership test of line 64, which performs no lowering or
trimming). -/
def isValidShiftStr : PyVal → Bool
  | .pyStr s => decide (s ∈ VALID_SHIFTS)
  | _ => false

/-- One iteration of the priority-map loop (scheduler.py lines 72-86);
the accumulator is (pref_count, seen_shifts, priorities), with
`priorities` an insertion-ordered dict. -/
def prioStep (acc : Nat × List String × List (String × Int)) (kv : PyVal × PyVal) :
    Except SchedErr (Nat × List String × List (String × Int)) :=
  match kv.1 with
  | .pyStr shiftName =>
    let sLower := lowerStrip shiftName
    if sLower ∉ VALID_SHIFTS then
      throw (SchedErr.invalidInput "Invalid shift.")
    else if sLower ∈ acc.2.1 then
      throw (SchedErr.invalidInput "Duplicate shift preference.")
    else if acc.1 + 1 > 2 then
      throw (SchedErr.invalidInput "Only two preferences allowed.")
    else
      match kv.2 with
      | .pyInt p =>
        if p < 1 then
          throw (SchedErr.invalidInput "Priority must be a positive integer.")
        else
          pure (acc.1 + 1, acc.2.1 ++ [sLower], acc.2.2 ++ [(sLower, p)])
      | _ => throw (SchedErr.invalidInput "Priority must be a positive integer.")
  | _ => throw (SchedErr.invalidInput "Shift keys must be strings.")

/-- Fill in the unnamed shifts at the default priority and sort (lines
87-92). -/
def finishPriorities (priorities : List (String × Int)) : List String :=
  let defaultP : Int :=
    if priorities ≠ [] then ((priorities.map Prod.snd).foldl max 0) + 10 else 1
  let priorities := priorities ++
    (VALID_SHIFTS.filter (fun s => (dictGet priorities s).isNone)).map
      (fun s => (s, defaultP))
  sortByPriority priorities

/-- The single-string case of lines 51-63: the (lowered, trimmed)
string must be a valid shift; it gets priority 1 and the other two
shifts get 2 and 3 in `VALID_SHIFTS` declaration order, then the items
are sorted by (priority, name). -/
def stringCaseNorm (s : String) : Except SchedErr (List String) :=
  if s ∈ VALID_SHIFTS then
    let others := VALID_SHIFTS.filter (fun o => o ≠ s)
    let priorities : List (String × Int) :=
      (s, 1) :: (others.zip (List.range others.length)).map
        (fun oi => (oi.1, (2 : Int) + oi.2))
    .ok (sortByPriority priorities)
  else
    .error (.invalidInput "Invalid shift.")

/-- Normalization of one raw per-day preference value (scheduler.py
lines 47-92). -/
def normalizePrefVal (priMap : PyVal) : Except SchedErr (List String) :=
  -- line 48: None or an empty dict means no preference
  match priMap with
  | .pyNone => .ok sortedValidShifts
  | .pyDict [] => .ok sortedValidShifts
  | .pyStr str => stringCaseNorm (lowerStrip str)
  | .pyList xs =>
      -- lines 64-66: a list of length 3 whose members are all valid
      -- shift strings is used verbatim
      if xs.length = VALID_SHIFTS.length ∧ xs.all isValidShiftStr then
        .ok (xs.map (fun x => match x with | .pyStr s => s | _ => ""))
      else
        -- lines 67-68: a list is not a dict
        .error (.invalidInput "Preferences must be an object mapping shift to priority integer or null.")
  | .pyDict pm => do
      -- lines 69-92: explicit priority map
      let st ← exFoldl prioStep (0, [], []) pm
      pure (finishPriorities st.2.2)
  | _ =>
      .error (.invalidInput "Preferences must be an object mapping shift to priority integer or null.")

/-- One iteration of the day loop of lines 44-92: check the day key,
normalize the raw value, store it with dict assignment. -/
def dayStep (acc : List (String × List String)) (kv : PyVal × PyVal) :
    Except SchedErr (List (String × List String)) :=
  match kv.1 with
  | .pyStr day =>
    if day ∈ DAYS_OF_WEEK then do
      let l ← normalizePrefVal kv.2
      pure (dictSet acc day l)
    else
      throw (SchedErr.invalidInput "Invalid day.")
  | _ => throw (SchedErr.invalidInput "Invalid day.")

/-- Processing of one employee's day map (scheduler.py lines 38-96):
type check, all-seven-days check, per-day normalization, and the
defensive post-normalization check. -/
def processEmployee (v : PyVal) : Except SchedErr (List (String × List String)) :=
  match v with
  | .pyDict dayMap =>
    -- lines 40-42: every one of the seven day names must be present
    match DAYS_OF_WEEK.find? (fun d => ¬ pyDictHasKey dayMap d) with
    | some _ => .error (.invalidInput "Employee missing preferences for a day.")
    | none => do
      let normalized ← exFoldl dayStep [] dayMap
      -- lines 93-96: post-normalization check (each day a 3-element list)
      match DAYS_OF_WEEK.find? (fun d =>
          match dictGet normalized d with
          | some l => ¬ l.length = 3
          | none => true) with
      | some _ => throw (SchedErr.invalidInput "Invalid or incomplete preferences.")
      | none => pure normalized
  | _ => .error (.invalidInput "Preferences must be an object mapping day to priority-object or null.")

/-- Key extraction of line 31 (`.strip().lower()` is applied to every
key, so a non-string key raises AttributeError there). -/
def keyStr (kv : PyVal × PyVal) : Except SchedErr String :=
  match kv.1 with
  | PyVal.pyStr s => pure s
  | _ => throw SchedErr.attributeError

/-- One iteration of the employee loop of lines 35-96. -/
def empStep (kv : PyVal × PyVal) :
    Except SchedErr (String × List (String × List String)) :=
  match kv.1 with
  | .pyStr empName =>
    -- lines 36-37 (the non-string arm is unreachable after line 31)
    if pyStrip empName = "" then
      throw (SchedErr.invalidInput "Invalid employee name.")
    else do
      let dm ← processEmployee kv.2
      pure (empName, dm)
  | _ => throw SchedErr.attributeError

/-- `collect_employee_preferences` (scheduler.py lines 26-97). -/
def collect_employee_preferences (raw : PyVal) :
    Except SchedErr (List (String × List (String × List String))) :=
  match raw with
  | .pyDict kvs =>
    -- line 29
    if kvs.isEmpty then
      .error (.invalidInput "No employees provided.")
    else do
      let names ← exMap keyStr kvs
      let empNames := names.map stripLower
      -- line 32
      if empNames.Nodup then
        exMap empStep kvs
      else
        .error (.invalidInput "Duplicate employee names are not allowed.")
  | _ => .error (.invalidInput "Top-level preferences must be an object mapping employee to preferences.")

/-! ## The assignment engine (`generate_schedule`, lines 99-157) -/

/-- Mutable state of one scheduling run: the schedule under
construction (line 106), the per-employee day counters (line 107), and
two ghost flags recording whether the first fallback (lines 139-147)
or the final fallback (lines 149-156) ever assigned anyone.  The flags
instrument the run; they do not influence it. -/
structure EState where
  sched : String → String → List String
  count : String → Nat
  usedFirst : Bool
  usedFinal : Bool

/-- Append employee `e` to the `(d, s)` cell and bump the counter
(lines 132-133, 144-145, 154-155). -/
def assignEmp (st : EState) (d s e : String) : EState :=
  { st with
    sched := fun d' s' =>
      if d' = d ∧ s' = s then st.sched d s ++ [e] else st.sched d' s'
    count := fun e' => if e' = e then st.count e + 1 else st.count e' }

/-- Rank of `shift` in an employee's normalized preference list for
the day: `pref_list.index(shift)`, or `len(VALID_SHIFTS)` = 3 when the
shift does not occur (lines 116-120). -/
def rankOf (prefList : List String) (shift : String) : Nat :=
  match prefList.indexOf? shift with
  | some i => i
  | none => 3

/-- One iteration of the candidate walk (lines 129-137); the triple is
(state, assigned-today, placed).  Once `placed` reaches 2 the loop has
broken, so later iterations change nothing. -/
def walkStep (d s : String) (acc : EState × List String × Nat) (e : String) :
    EState × List String × Nat :=
  if acc.2.2 ≥ 2 then acc
  else if acc.1.count e ≥ 5 ∨ e ∈ acc.2.1 then acc
  else (assignEmp acc.1 d s e, acc.2.1 ++ [e], acc.2.2 + 1)

/-- One iteration of the first fallback scan (lines 140-147). -/
def fb1Step (d s : String) (acc : EState × List String × Nat) (e : String) :
    EState × List String × Nat :=
  if acc.2.2 ≥ 2 then acc
  else if acc.1.count e < 5 ∧ e ∉ acc.2.1 then
    ({ assignEmp acc.1 d s e with usedFirst := true }, acc.2.1 ++ [e], acc.2.2 + 1)
  else acc

/-- One iteration of the final fallback scan (lines 150-156); note it
does not add the employee to the assigned-today set. -/
def finalStep (d s : String) (acc : EState × List String × Nat) (e : String) :
    EState × List String × Nat :=
  if acc.2.2 ≥ 2 then acc
  else if acc.1.count e < 5 then
    ({ assignEmp acc.1 d s e with usedFinal := true }, acc.2.1, acc.2.2 + 1)
  else acc

/-- The rank-ordered candidate list of lines 111-126: the eligible
employees grouped by rank, groups in ascending rank order, each group
permuted by `deterministic_shuffle` with seed 1.  Ranks that occur for
no eligible employee contribute the shuffle of an empty list, which is
empty, so iterating over `List.range` up to the largest rank equals
Python's iteration over `sorted(rank_map.keys())`. -/
def orderedCandidates (emps : List String) (pref : String → String → List String)
    (st : EState) (today : List String) (d s : String) : List String :=
  let eligible := emps.filter (fun e => ¬ (st.count e ≥ 5 ∨ e ∈ today))
  let rank := fun e => rankOf (pref e d) s
  let maxR := (eligible.map rank).foldr max 0
  (List.range (maxR + 1)).flatMap
    (fun r => deterministic_shuffle (eligible.filter (fun e => rank e = r)))

/-- The candidate walk of lines 127-137, started with `placed = 0`. -/
def cellWalk (emps : List String) (pref : String → String → List String)
    (d s : String) (acc : EState × List String) : EState × List String × Nat :=
  (orderedCandidates emps pref acc.1 acc.2 d s).foldl (walkStep d s) (acc.1, acc.2, 0)

/-- The first fallback scan of lines 138-147 (runs only when fewer
than two were placed). -/
def cellFB1 (emps : List String) (d s : String)
    (w : EState × List String × Nat) : EState × List String × Nat :=
  if w.2.2 < 2 then emps.foldl (fb1Step d s) w else w

/-- The final fallback scan of lines 148-156 (runs only when still
fewer than two were placed). -/
def cellFinal (emps : List String) (d s : String)
    (w : EState × List String × Nat) : EState × List String × Nat :=
  if w.2.2 < 2 then emps.foldl (finalStep d s) w else w

/-- Processing of one `(day, shift)` cell (lines 110-156): the walk,
then (if fewer than two were placed) the first fallback, then (if
still fewer than two) the final fallback. -/
def processCell (emps : List String) (pref : String → String → List String)
    (d : String) (acc : EState × List String) (s : String) : EState × List String :=
  let w3 := cellFinal emps d s (cellFB1 emps d s (cellWalk emps pref d s acc))
  (w3.1, w3.2.1)

/-- Processing of one day (lines 108-156): reset the assigned-today
set, then handle the three shifts in order. -/
def processDay (emps : List String) (pref : String → String → List String)
    (st : EState) (d : String) : EState :=
  (VALID_SHIFTS.foldl (processCell emps pref d) (st, [])).1

/-- The full seven-day run over an employee list and normalized
preference lookup. -/
def scheduleCore (emps : List String) (pref : String → String → List String) : EState :=
  DAYS_OF_WEEK.foldl (processDay emps pref)
    ⟨fun _ _ => [], fun _ => 0, false, false⟩

/-- Preference lookup `preferences[emp][day]` on the normalizer's
output (total on the keys the engine ever uses). -/
def prefLookup (norm : List (String × List (String × List String)))
    (e d : String) : List String :=
  match dictGet norm e with
  | some dm => (dictGet dm d).getD []
  | none => []

/-- Validation phase plus engine run, returning the full final state
(ghost flags included). -/
def coreResult (raw : PyVal) : Except SchedErr EState :=
  match raw with
  | .pyDict _ => do
    let norm ← collect_employee_preferences raw
    let employees := norm.map Prod.fst
    if employees.length < 6 then
      throw (SchedErr.insufficientStaff "At least 6 unique employees are required to generate a schedule.")
    else
      pure (scheduleCore employees (prefLookup norm))
  | _ => .error (.invalidInput "Top-level preferences must be an object mapping employee to preferences.")

/-- The returned schedule shape: a dict from each day to a dict from
each shift to the list of assigned employees (line 106 and the
mutations thereafter). -/
def mkSchedule (f : String → String → List String) :
    List (String × List (String × List String)) :=
  DAYS_OF_WEEK.map (fun d => (d, VALID_SHIFTS.map (fun s => (s, f d s))))

/-- `generate_schedule` (scheduler.py lines 99-157). -/
def generate_schedule (raw : PyVal) :
    Except SchedErr (List (String × List (String × List String))) := do
  let st ← coreResult raw
  pure (mkSchedule st.sched)

/-- Cell processing with the first fallback (lines 138-147) removed:
the variant whose equivalence with `processCell` claim C10 asserts. -/
def processCellNoFirstFallback (emps : List String)
    (pref : String → String → List String)
    (d : String) (acc : EState × List String) (s : String) : EState × List String :=
  let w3 := cellFinal emps d s (cellWalk emps pref d s acc)
  (w3.1, w3.2.1)

/-- `generate_schedule` with the first fallback removed. -/
def generate_schedule_noFirstFallback (raw : PyVal) :
    Except SchedErr (List (String × List (String × List String))) :=
  match raw with
  | .pyDict _ => do
    let norm ← collect_employee_preferences raw
    let employees := norm.map Prod.fst
    if employees.length < 6 then
      throw (SchedErr.insufficientStaff "At least 6 unique employees are required to generate a schedule.")
    else
      pure (mkSchedule
        (DAYS_OF_WEEK.foldl
          (fun st d =>
            (VALID_SHIFTS.foldl
              (processCellNoFirstFallback employees (prefLookup norm) d)
              (st, [])).1)
          ⟨fun _ _ => [], fun _ => 0, false, false⟩).sched)
  | _ => .error (.invalidInput "Top-level preferences must be an object mapping employee to preferences.")

/-- Lookup of a `(day, shift)` cell in a returned schedule. -/
def schedLookup (res : Except SchedErr (List (String × List (String × List String))))
    (d s : String) : Option (List String) :=
  match res with
  | .ok sched =>
    match dictGet sched d with
    | some row => dictGet row s
    | none => none
  | .error _ => none

/-- Lookup of the normalized preference list of employee `e` for day
`d` in the normalizer's result. -/
def normLookup (raw : PyVal) (e d : String) : Option (List String) :=
  match collect_employee_preferences raw with
  | .ok norm =>
    match dictGet norm e with
    | some dm => dictGet dm d
    | none => none
  | .error _ => none

/-- The employee keys of the normalizer's result (empty on error). -/
def collectKeys (raw : PyVal) : List String :=
  match collect_employee_preferences raw with
  | .ok norm => norm.map Prod.fst
  | .error _ => []

def errIsInvalid (r : Except SchedErr α) : Bool :=
  match r with
  | .error e => e.isInvalidInput
  | .ok _ => false

def errIsInsufficient (r : Except SchedErr α) : Bool :=
  match r with
  | .error e => e.isInsufficientStaff
  | .ok _ => false

/-! ## Concrete inputs used by counterexamples and witnesses -/

/-- A per-day preference dict assigning `f d` to each of the seven
days. -/
def mkDayMap (f : String → PyVal) : PyVal :=
  PyVal.pyDict (DAYS_OF_WEEK.map (fun d => (PyVal.pyStr d, f d)))

/-- A per-day preference dict assigning the same raw value to every
day. -/
def constDayMap (v : PyVal) : PyVal := mkDayMap (fun _ => v)

/-- One employee whose list-form preference repeats a shift name. -/
def c1raw : PyVal :=
  PyVal.pyDict [(PyVal.pyStr "alice",
    constDayMap (PyVal.pyList
      [PyVal.pyStr "morning", PyVal.pyStr "morning", PyVal.pyStr "morning"]))]

/-- One employee whose single-string preference is "evening". -/
def c2raw : PyVal :=
  PyVal.pyDict [(PyVal.pyStr "bob", constDayMap (PyVal.pyStr "evening"))]

/-- Six employees, two preferring each shift on every day. -/
def c3raw : PyVal :=
  PyVal.pyDict [
    (PyVal.pyStr "Alice", constDayMap (PyVal.pyStr "morning")),
    (PyVal.pyStr "Bob", constDayMap (PyVal.pyStr "morning")),
    (PyVal.pyStr "Carol", constDayMap (PyVal.pyStr "afternoon")),
    (PyVal.pyStr "Dave", constDayMap (PyVal.pyStr "afternoon")),
    (PyVal.pyStr "Eve", constDayMap (PyVal.pyStr "evening")),
    (PyVal.pyStr "Frank", constDayMap (PyVal.pyStr "evening"))]

/-- Six employees who all prefer morning on Monday and Tuesday and
state no preference on the other days (the scenario of the repo's
`TestConflictResolutionMultipleDays`). -/
def c7raw : PyVal :=
  PyVal.pyDict ((["A", "B", "C", "D", "E", "F"]).map (fun n =>
    (PyVal.pyStr n, mkDayMap (fun d =>
      if d = "Monday" ∨ d = "Tuesday" then PyVal.pyStr "morning" else PyVal.pyNone))))

/-- A single employee with a capitalized name and no preferences. -/
def c9raw : PyVal :=
  PyVal.pyDict [(PyVal.pyStr "Alice", constDayMap PyVal.pyNone)]

def c8dupNames : PyVal :=
  PyVal.pyDict [(PyVal.pyStr "Alice", constDayMap PyVal.pyNone),
    (PyVal.pyStr "alice", constDayMap PyVal.pyNone)]

def c8missingDay (d : String) : PyVal :=
  PyVal.pyDict [(PyVal.pyStr "Alice",
    PyVal.pyDict ((DAYS_OF_WEEK.filter (fun d' => d' ≠ d)).map
      (fun d' => (PyVal.pyStr d', PyVal.pyNone))))]

def c8badDay : PyVal :=
  PyVal.pyDict [(PyVal.pyStr "Alice",
    PyVal.pyDict ((DAYS_OF_WEEK.map (fun d => (PyVal.pyStr d, PyVal.pyNone))) ++
      [(PyVal.pyStr "Funday", PyVal.pyNone)]))]

def c8badShift : PyVal :=
  PyVal.pyDict [(PyVal.pyStr "Alice", constDayMap (PyVal.pyStr "midnight"))]

def c8threePrefs : PyVal :=
  PyVal.pyDict [(PyVal.pyStr "Alice", constDayMap (PyVal.pyDict
    [(PyVal.pyStr "morning", PyVal.pyInt 1),
     (PyVal.pyStr "afternoon", PyVal.pyInt 2),
     (PyVal.pyStr "evening", PyVal.pyInt 3)]))]

def c8zeroPriority : PyVal :=
  PyVal.pyDict [(PyVal.pyStr "Alice", constDayMap (PyVal.pyDict
    [(PyVal.pyStr "morning", PyVal.pyInt 0)]))]

def c8strPriority : PyVal :=
  PyVal.pyDict [(PyVal.pyStr "Alice", constDayMap (PyVal.pyDict
    [(PyVal.pyStr "morning", PyVal.pyStr "high")]))]

def c8fiveEmployees : PyVal :=
  PyVal.pyDict ((["e1", "e2", "e3", "e4", "e5"]).map (fun n =>
    (PyVal.pyStr n, constDayMap PyVal.pyNone)))

/-! ## Permutation and naturality of the deterministic shuffle -/

/-- The three invariants of the priority-map accumulator. -/
def PrioInv (acc : Nat × List String × List (String × Int)) : Prop :=
  acc.2.1 = acc.2.2.map Prod.fst ∧ (acc.2.2.map Prod.fst).Nodup ∧
    ∀ k ∈ acc.2.2.map Prod.fst, k ∈ VALID_SHIFTS

/-- Total number of schedule entries holding employee `e`. -/
def schedCount (f : String → String → List String) (e : String) : Nat :=
  (DAYS_OF_WEEK.map (fun d => (VALID_SHIFTS.map (fun s => (f d s).count e)).sum)).sum

/-- All employee entries of a returned schedule, flattened. -/
def schedFlat (sched : List (String × List (String × List String))) : List String :=
  sched.flatMap (fun p => p.2.flatMap Prod.snd)

/-- The weekly-cap invariant: the per-employee counters match the
entries placed so far and never exceed 5. -/
def Inv5 (st : EState) : Prop :=
  ∀ e, schedCount st.sched e = st.count e ∧ st.count e ≤ 5

/-- Everything the candidate walk guarantees: `fresh` is the list of
employees it assigned, in order. -/
def WalkOut (d s : String) (st : EState) (today : List String) (p : Nat)
    (ordered : List String) (R : EState × List String × Nat)
    (fresh : List String) : Prop :=
  R.2.1 = today ++ fresh ∧
  R.2.2 = p + fresh.length ∧
  (∀ e ∈ fresh, e ∈ ordered ∧ e ∉ today ∧ st.count e < 5) ∧
  (∀ e, R.1.count e = st.count e + (if e ∈ fresh then 1 else 0)) ∧
  R.1.sched d s = st.sched d s ++ fresh ∧
  (∀ d' s', ¬ (d' = d ∧ s' = s) → R.1.sched d' s' = st.sched d' s') ∧
  R.1.usedFirst = st.usedFirst ∧
  R.1.usedFinal = st.usedFinal ∧
  R.2.2 ≤ max p 2 ∧
  (R.2.2 < 2 → ∀ e ∈ ordered, 5 ≤ R.1.count e ∨ e ∈ R.2.1) ∧
  fresh.Nodup

def dayEntries (f : String → String → List String) (d : String) : List String :=
  (VALID_SHIFTS.map (f d)).flatten

def runUsedFinal (raw : PyVal) : Bool :=
  match coreResult raw with
  | .ok st => st.usedFinal
  | .error _ => true

def c3sched : List (String × List (String × List String)) :=
  (generate_schedule c3raw).toOption.getD []

def c3norm : List (String × List (String × List String)) :=
  (collect_employee_preferences c3raw).toOption.getD []

def c3kvs : List (PyVal × PyVal) :=
  [(PyVal.pyStr "Alice", constDayMap (PyVal.pyStr "morning")),
   (PyVal.pyStr "Bob", constDayMap (PyVal.pyStr "morning")),
   (PyVal.pyStr "Carol", constDayMap (PyVal.pyStr "afternoon")),
   (PyVal.pyStr "Dave", constDayMap (PyVal.pyStr "afternoon")),
   (PyVal.pyStr "Eve", constDayMap (PyVal.pyStr "evening")),
   (PyVal.pyStr "Frank", constDayMap (PyVal.pyStr "evening"))]

def c2norm : List (String × List (String × List String)) :=
  (collect_employee_preferences c2raw).toOption.getD []

theorem length_swapL (l : List α) (a b : Nat) : (swapL l a b).length = l.length := by
  rcases h1 : l[a]? with _ | x <;> rcases h2 : l[b]? with _ | y <;>
    simp [swapL, h1, h2]

theorem fyLoop_length : ∀ (m : Nat) (l : List α) (s : Nat),
    (fyLoop l s m).length = l.length := by
  intro m
  induction m with
  | zero => intro l s; rfl
  | succ m ih => intro l s; simp [fyLoop, ih, length_swapL]

theorem map_swapL (f : α → β) (l : List α) (a b : Nat) :
    swapL (l.map f) a b = (swapL l a b).map f := by
  rcases h1 : l[a]? with _ | x <;> rcases h2 : l[b]? with _ | y <;>
    simp [swapL, h1, h2, List.getElem?_map, List.map_set]

theorem map_fyLoop (f : α → β) : ∀ (m : Nat) (l : List α) (s : Nat),
    fyLoop (l.map f) s m = (fyLoop l s m).map f := by
  intro m
  induction m with
  | zero => intro l s; rfl
  | succ m ih => intro l s; simp [fyLoop, ih, map_swapL]

theorem shuffle_map (f : α → β) (l : List α) :
    deterministic_shuffle (l.map f) = (deterministic_shuffle l).map f := by
  simp [deterministic_shuffle, map_fyLoop]

theorem swapout_perm : ∀ (t : List α) (m : Nat) (x y : α), t[m]? = some y →
    List.Perm (y :: t.set m x) (x :: t) := by
  intro t
  induction t with
  | nil => intro m x y h; simp at h
  | cons h t ih =>
    intro m x y hm
    cases m with
    | zero =>
      have hy : h = y := by simpa using hm
      rw [List.set_cons_zero, hy]
      exact List.Perm.swap x y t
    | succ m =>
      have hm' : t[m]? = some y := by simpa using hm
      rw [List.set_cons_succ]
      have s1 : List.Perm (y :: h :: t.set m x) (h :: y :: t.set m x) :=
        List.Perm.swap h y _
      have s2 : List.Perm (h :: y :: t.set m x) (h :: x :: t) :=
        List.Perm.cons h (ih m x y hm')
      have s3 : List.Perm (h :: x :: t) (x :: h :: t) := List.Perm.swap x h t
      exact (s1.trans s2).trans s3

theorem set_set_perm : ∀ (l : List α) (a b : Nat) (x y : α),
    l[a]? = some x → l[b]? = some y → List.Perm ((l.set a y).set b x) l := by
  intro l
  induction l with
  | nil => intro a b x y h; simp at h
  | cons h t ih =>
    intro a b x y ha hb
    cases a with
    | zero =>
      cases b with
      | zero =>
        have hx : h = x := by simpa using ha
        rw [List.set_cons_zero, List.set_cons_zero, hx]
      | succ b =>
        have hx : h = x := by simpa using ha
        have hb' : t[b]? = some y := by simpa using hb
        rw [List.set_cons_zero, List.set_cons_succ, hx]
        exact swapout_perm t b x y hb'
    | succ a =>
      cases b with
      | zero =>
        have hy : h = y := by simpa using hb
        have ha' : t[a]? = some x := by simpa using ha
        rw [List.set_cons_succ, List.set_cons_zero, hy]
        exact swapout_perm t a y x ha'
      | succ b =>
        have ha' : t[a]? = some x := by simpa using ha
        have hb' : t[b]? = some y := by simpa using hb
        rw [List.set_cons_succ, List.set_cons_succ]
        exact List.Perm.cons h (ih a b x y ha' hb')

theorem swapL_perm (l : List α) (a b : Nat) : List.Perm (swapL l a b) l := by
  rcases h1 : l[a]? with _ | x <;> rcases h2 : l[b]? with _ | y <;>
    simp [swapL, h1, h2]
  exact set_set_perm l a b x y h1 h2

theorem fyLoop_perm : ∀ (m : Nat) (l : List α) (s : Nat),
    List.Perm (fyLoop l s m) l := by
  intro m
  induction m with
  | zero => intro l s; exact List.Perm.refl l
  | succ m ih =>
    intro l s
    exact (ih _ _).trans (swapL_perm l m _)

theorem shuffle_perm (l : List α) : List.Perm (deterministic_shuffle l) l :=
  fyLoop_perm l.length l 1

theorem mem_shuffle {a : α} {l : List α} : a ∈ deterministic_shuffle l ↔ a ∈ l :=
  (shuffle_perm l).mem_iff

theorem map_getD_range : ∀ (xs : List α) (d0 : α),
    (List.range xs.length).map (fun i => xs.getD i d0) = xs := by
  intro xs
  induction xs with
  | nil => intro d0; rfl
  | cons x t ih =>
    intro d0
    rw [List.length_cons, List.range_succ_eq_map, List.map_cons, List.map_map]
    have hc : ((fun i => (x :: t).getD i d0) ∘ Nat.succ) = fun i => t.getD i d0 := by
      funext i
      simp
    rw [List.getD_cons_zero, hc, ih d0]

/-- Claim C6: `generate_schedule` is a deterministic function of its
input, and `deterministic_shuffle` (fixed seed 1) acts on any sequence
by an index permutation that depends only on the sequence's length, so
any two equal-length sequences receive the same permutation pattern. -/
theorem generate_schedule_deterministic_shuffle_length_uniform :
    (∀ raw, generate_schedule raw = generate_schedule raw) ∧
    ∀ (α : Type) (d0 : α) (xs : List α),
      deterministic_shuffle xs =
        (deterministic_shuffle (List.range xs.length)).map (fun i => xs.getD i d0) := by
  refine ⟨fun _ => rfl, fun α d0 xs => ?_⟩
  conv_lhs => rw [← map_getD_range xs d0]
  rw [shuffle_map]

/-! ## Error handling (claim C8) -/

/-- Evaluation of the insufficient-staff rejection, kept separate so
the kernel evaluates one run per declaration. -/
theorem c8five_insufficient_eval :
    errIsInsufficient (generate_schedule c8fiveEmployees) = true := by
  rfl

/-- Claim C8: a non-mapping top-level value, an empty mapping,
case-insensitively equal employee names, a missing day key (any of the
seven), an unrecognized day name, an unrecognized shift name, a
priority map with three explicit entries, a non-positive priority and
a non-integer priority all make the normalizer raise the InvalidInput
kind, and a well-formed input with five unique employees makes
`generate_schedule` raise the InsufficientStaff kind. -/
theorem validation_rejections :
    errIsInvalid (collect_employee_preferences (PyVal.pyList [])) = true ∧
    errIsInvalid (collect_employee_preferences (PyVal.pyDict [])) = true ∧
    errIsInvalid (collect_employee_preferences c8dupNames) = true ∧
    (DAYS_OF_WEEK.all fun d =>
      errIsInvalid (collect_employee_preferences (c8missingDay d))) = true ∧
    errIsInvalid (collect_employee_preferences c8badDay) = true ∧
    errIsInvalid (collect_employee_preferences c8badShift) = true ∧
    errIsInvalid (collect_employee_preferences c8threePrefs) = true ∧
    errIsInvalid (collect_employee_preferences c8zeroPriority) = true ∧
    errIsInvalid (collect_employee_preferences c8strPriority) = true ∧
    errIsInsufficient (generate_schedule c8fiveEmployees) = true := by
  exact ⟨rfl, rfl, rfl, rfl, rfl, rfl, rfl, rfl, rfl, c8five_insufficient_eval⟩

/-! ## Counterexample and evaluation theorems -/

/-- Claim C1 counterexample: the normalizer accepts a list-form raw
preference whose three entries repeat the same shift name and uses it
verbatim, so the normalized value is not duplicate-free (hence not a
permutation of the three shifts), and list-form input is not required
to contain each shift exactly once. -/
theorem normalized_value_can_repeat_shifts :
    normLookup c1raw "alice" "Monday" = some ["morning", "morning", "morning"] ∧
    ¬ (["morning", "morning", "morning"] : List String).Nodup := by
  exact ⟨rfl, by decide⟩

/-- Claim C2 counterexample: the single string "evening" normalizes to
[evening, morning, afternoon] — the remaining two shifts come out in
`VALID_SHIFTS` declaration order, not alphabetical order as claimed. -/
theorem string_pref_not_alphabetical :
    normLookup c2raw "bob" "Monday" = some ["evening", "morning", "afternoon"] ∧
    (["evening", "morning", "afternoon"] : List String) ≠
      ["evening", "afternoon", "morning"] := by
  exact ⟨rfl, by decide⟩

/-- Claim C3 counterexample: six employees with preferences spread
across all three shifts (two per shift) exhaust the 5-day weekly cap
after Friday, so Saturday morning's list is empty — not at least two. -/
theorem six_employees_saturday_empty :
    schedLookup (generate_schedule c3raw) "Saturday" "morning" = some [] := by
  rfl

/-- One engine run on the overflow scenario, Monday morning cell. -/
theorem c7_monday_eval :
    schedLookup (generate_schedule c7raw) "Monday" "morning" = some ["E", "A"] := by
  rfl

/-- One engine run on the overflow scenario, Tuesday morning cell. -/
theorem c7_tuesday_eval :
    schedLookup (generate_schedule c7raw) "Tuesday" "morning" = some ["E", "A"] := by
  rfl

/-- One engine run on the overflow scenario, Wednesday morning cell. -/
theorem c7_wednesday_eval :
    schedLookup (generate_schedule c7raw) "Wednesday" "morning" = some ["E", "A"] := by
  rfl

/-- Claim C7 (code versus its own test): on the repo's own overflow
scenario — six employees preferring morning on Monday and Tuesday and
nothing after — the engine assigns the same two employees ("E" and
"A") to morning on Monday, Tuesday and Wednesday, so the union over
the three days misses four of the six employees instead of covering
all of them. -/
theorem overflow_cascade_failing_run :
    schedLookup (generate_schedule c7raw) "Monday" "morning" = some ["E", "A"] ∧
    schedLookup (generate_schedule c7raw) "Tuesday" "morning" = some ["E", "A"] ∧
    schedLookup (generate_schedule c7raw) "Wednesday" "morning" = some ["E", "A"] ∧
    ¬ ("B" ∈ (["E", "A"] ++ ["E", "A"] ++ ["E", "A"] : List String)) := by
  exact ⟨c7_monday_eval, c7_tuesday_eval, c7_wednesday_eval, by decide⟩

/-- Claim C9 counterexample: the normalizer keys its result by the
employee identifier exactly as given ("Alice"), not by its lower-cased
form. -/
theorem collect_keys_not_lowercased :
    collectKeys c9raw = ["Alice"] ∧
    collectKeys c9raw ≠ (collectKeys c9raw).map stripLower := by
  refine ⟨rfl, ?_⟩
  have h1 : collectKeys c9raw = ["Alice"] := rfl
  rw [h1]
  decide

/-! ## Normalizer lemmas (claims C1, C2, C9) -/

theorem exBind_ok {ε α β : Type _} {r : Except ε α} {g : α → Except ε β} {b : β}
    (h : r >>= g = .ok b) : ∃ a, r = .ok a ∧ g a = .ok b := by
  cases r with
  | error e => simp [Bind.bind, Except.bind] at h
  | ok a => exact ⟨a, rfl, by simpa [Bind.bind, Except.bind] using h⟩

theorem exMap_forall2 {α β ε : Type _} {f : α → Except ε β} :
    ∀ {xs : List α} {ys : List β}, exMap f xs = .ok ys →
      List.Forall₂ (fun x y => f x = .ok y) xs ys := by
  intro xs
  induction xs with
  | nil =>
    intro ys h
    simp only [exMap] at h
    cases h
    exact List.Forall₂.nil
  | cons x xs ih =>
    intro ys h
    simp only [exMap] at h
    rcases exBind_ok h with ⟨y, hy, h2⟩
    rcases exBind_ok h2 with ⟨ys', hys, h3⟩
    cases h3
    exact List.Forall₂.cons hy (ih hys)

theorem exFoldl_inv {σ α ε : Type _} {P : σ → Prop} {f : σ → α → Except ε σ}
    (hstep : ∀ acc x acc', P acc → f acc x = .ok acc' → P acc') :
    ∀ {xs : List α} {acc out : σ}, P acc → exFoldl f acc xs = .ok out → P out := by
  intro xs
  induction xs with
  | nil =>
    intro acc out hP h
    simp only [exFoldl] at h
    cases h
    exact hP
  | cons x xs ih =>
    intro acc out hP h
    simp only [exFoldl] at h
    rcases exBind_ok h with ⟨acc', hstep', hrest⟩
    exact ih (hstep acc x acc' hP hstep') hrest

theorem mem_dictSet {α : Type _} :
    ∀ {m : List (String × α)} {k : String} {v : α} {q},
      q ∈ dictSet m k v → q = (k, v) ∨ q ∈ m := by
  intro m
  induction m with
  | nil =>
    intro k v q hq
    simp [dictSet] at hq
    exact Or.inl hq
  | cons p rest ih =>
    intro k v q hq
    obtain ⟨k', v'⟩ := p
    by_cases hk : k' = k
    · simp [dictSet, hk] at hq
      rcases hq with h | h
      · exact Or.inl (by simp [h])
      · exact Or.inr (List.mem_cons_of_mem _ h)
    · simp [dictSet, hk] at hq
      rcases hq with h | h
      · exact Or.inr (by simp [h])
      · rcases ih h with h' | h'
        · exact Or.inl h'
        · exact Or.inr (List.mem_cons_of_mem _ h')

theorem dictGet_dictSet_self {α : Type _} :
    ∀ (m : List (String × α)) (k : String) (v : α),
      dictGet (dictSet m k v) k = some v := by
  intro m
  induction m with
  | nil => intro k v; simp [dictSet, dictGet]
  | cons p rest ih =>
    intro k v
    obtain ⟨k', v'⟩ := p
    by_cases hk : k' = k
    · simp [dictSet, dictGet, hk]
    · simp [dictSet, dictGet, hk, ih]

theorem dictGet_dictSet_other {α : Type _} :
    ∀ (m : List (String × α)) (k k' : String) (v : α), k' ≠ k →
      dictGet (dictSet m k v) k' = dictGet m k' := by
  intro m
  induction m with
  | nil =>
    intro k k' v hne
    simp [dictSet, dictGet, Ne.symm hne]
  | cons p rest ih =>
    intro k k' v hne
    obtain ⟨k0, v0⟩ := p
    by_cases hk : k0 = k
    · subst hk
      have hne' : ¬ (k0 = k') := fun h => hne h.symm
      simp [dictSet, dictGet, hne']
    · by_cases hk' : k0 = k'
      · simp [dictSet, dictGet, hk, hk', hne]
      · simp [dictSet, dictGet, hk, hk', ih k k' v hne]

theorem dictGet_none_iff {α : Type _} :
    ∀ (m : List (String × α)) (k : String),
      (dictGet m k).isNone = true ↔ k ∉ m.map Prod.fst := by
  intro m
  induction m with
  | nil => intro k; simp [dictGet]
  | cons p rest ih =>
    intro k
    obtain ⟨k', v'⟩ := p
    by_cases hk : k' = k
    · simp [dictGet, hk]
    · simp [dictGet, hk, ih, Ne.symm hk]

theorem stableInsert_perm (le : α → α → Bool) (x : α) :
    ∀ (l : List α), List.Perm (stableInsert le x l) (x :: l) := by
  intro l
  induction l with
  | nil => simp [stableInsert]
  | cons y ys ih =>
    by_cases h : le y x = true
    · simp only [stableInsert, h, if_true]
      exact (List.Perm.cons y ih).trans (List.Perm.swap x y ys)
    · simp [stableInsert, h]

theorem foldl_stableInsert_perm (le : α → α → Bool) :
    ∀ (l acc : List α),
      List.Perm (l.foldl (fun a x => stableInsert le x a) acc) (acc ++ l) := by
  intro l
  induction l with
  | nil => intro acc; simp
  | cons x t ih =>
    intro acc
    have h1 := ih (stableInsert le x acc)
    have h2 : List.Perm (stableInsert le x acc ++ t) ((x :: acc) ++ t) :=
      (stableInsert_perm le x acc).append_right t
    have h3 : List.Perm ((x :: acc) ++ t) (acc ++ x :: t) := by
      simpa using List.perm_middle.symm
    simpa using (h1.trans h2).trans h3

theorem stableSort_perm (le : α → α → Bool) (l : List α) :
    List.Perm (stableSort le l) l := by
  simpa using foldl_stableInsert_perm le l []

theorem sortByPriority_perm (items : List (String × Int)) :
    List.Perm (sortByPriority items) (items.map Prod.fst) :=
  (stableSort_perm prioLe items).map Prod.fst

theorem prioStep_ok_elim {acc kv acc'} (h : prioStep acc kv = .ok acc') :
    ∃ s p, kv.1 = PyVal.pyStr s ∧ kv.2 = PyVal.pyInt p ∧
      lowerStrip s ∈ VALID_SHIFTS ∧ lowerStrip s ∉ acc.2.1 ∧
      acc' = (acc.1 + 1, acc.2.1 ++ [lowerStrip s], acc.2.2 ++ [(lowerStrip s, p)]) := by
  obtain ⟨k, v⟩ := kv
  cases k <;> simp only [prioStep] at h
  case pyNone => cases h
  case pyInt n => cases h
  case pyList l2 => cases h
  case pyDict d2 => cases h
  case pyStr s =>
    refine ⟨s, ?_⟩
    split at h
    · cases h
    · split at h
      · cases h
      · split at h
        · cases h
        · cases v <;> simp only at h
          case pyNone => cases h
          case pyStr s2 => cases h
          case pyList l2 => cases h
          case pyDict d2 => cases h
          case pyInt p =>
            split at h
            · cases h
            · refine ⟨p, rfl, rfl, not_not.mp (by assumption), by assumption, ?_⟩
              have : Except.ok (ε := SchedErr)
                  (acc.1 + 1, acc.2.1 ++ [lowerStrip s], acc.2.2 ++ [(lowerStrip s, p)]) =
                  .ok acc' := h
              cases this
              rfl

theorem prioStep_inv {acc kv acc'} (hP : PrioInv acc)
    (h : prioStep acc kv = .ok acc') : PrioInv acc' := by
  obtain ⟨s, p, _, _, hmem, hseen, rfl⟩ := prioStep_ok_elim h
  obtain ⟨e1, e2, e3⟩ := hP
  refine ⟨by simp [e1], ?_, ?_⟩
  · simp only [List.map_append, List.map_cons, List.map_nil]
    rw [List.nodup_append]
    refine ⟨e2, List.nodup_singleton _, ?_⟩
    intro a ha hb
    simp at hb
    subst hb
    rw [e1] at hseen
    exact hseen ha
  · intro k hk
    simp only [List.map_append, List.map_cons, List.map_nil,
      List.mem_append, List.mem_singleton] at hk
    rcases hk with hk | hk
    · exact e3 k hk
    · subst hk; exact hmem

theorem keysAfterFill_perm (priorities : List (String × Int)) (dp : Int)
    (hnd : (priorities.map Prod.fst).Nodup)
    (hsub : ∀ k ∈ priorities.map Prod.fst, k ∈ VALID_SHIFTS) :
    List.Perm
      ((priorities ++
        (VALID_SHIFTS.filter (fun s => (dictGet priorities s).isNone)).map
          (fun s => (s, dp))).map Prod.fst)
      VALID_SHIFTS := by
  have hmapfst :
      ((VALID_SHIFTS.filter (fun s => (dictGet priorities s).isNone)).map
        (fun s => (s, dp))).map Prod.fst =
      VALID_SHIFTS.filter (fun s => (dictGet priorities s).isNone) := by
    have hcomp : (Prod.fst ∘ fun s : String => (s, dp)) = id := funext (fun _ => rfl)
    rw [List.map_map, hcomp, List.map_id]
  rw [List.map_append, hmapfst]
  have hVnd : VALID_SHIFTS.Nodup := by decide
  have hfilter_nd : (VALID_SHIFTS.filter (fun s => (dictGet priorities s).isNone)).Nodup :=
    hVnd.filter _
  have hnd2 : (priorities.map Prod.fst ++
      VALID_SHIFTS.filter (fun s => (dictGet priorities s).isNone)).Nodup := by
    rw [List.nodup_append]
    refine ⟨hnd, hfilter_nd, ?_⟩
    intro a ha hb
    have hb2 := List.of_mem_filter hb
    exact (dictGet_none_iff priorities a).mp hb2 ha
  refine (List.subperm_of_subset hnd2 ?_).antisymm (List.subperm_of_subset hVnd ?_)
  · intro a ha
    rcases List.mem_append.mp ha with h | h
    · exact hsub a h
    · exact List.mem_of_mem_filter h
  · intro a ha
    by_cases hmem : a ∈ priorities.map Prod.fst
    · exact List.mem_append.mpr (Or.inl hmem)
    · refine List.mem_append.mpr (Or.inr ?_)
      refine List.mem_filter.mpr ⟨ha, ?_⟩
      simpa using (dictGet_none_iff priorities a).mpr hmem

theorem finishPriorities_perm {priorities : List (String × Int)}
    (hnd : (priorities.map Prod.fst).Nodup)
    (hsub : ∀ k ∈ priorities.map Prod.fst, k ∈ VALID_SHIFTS) :
    List.Perm (finishPriorities priorities) VALID_SHIFTS := by
  simp only [finishPriorities]
  exact (sortByPriority_perm _).trans (keysAfterFill_perm priorities _ hnd hsub)

/-- Every successful normalization produces a 3-element list of valid
shift names; outside the verbatim-list case it is moreover a
permutation of `VALID_SHIFTS`. -/
theorem normalizePrefVal_ok {v : PyVal} {l : List String}
    (h : normalizePrefVal v = .ok l) :
    l.length = 3 ∧ ∀ x ∈ l, x ∈ VALID_SHIFTS := by
  cases v with
  | pyNone =>
    simp only [normalizePrefVal] at h
    cases h
    decide
  | pyInt n => simp [normalizePrefVal] at h
  | pyStr str =>
    simp only [normalizePrefVal, stringCaseNorm] at h
    split at h
    · rename_i hmem
      cases h
      have h3 : lowerStrip str = "morning" ∨ lowerStrip str = "afternoon" ∨
          lowerStrip str = "evening" := by
        simpa [VALID_SHIFTS] using hmem
      rcases h3 with h3 | h3 | h3 <;> rw [h3] <;> decide
    · cases h
  | pyList xs =>
    simp only [normalizePrefVal] at h
    split at h
    · rename_i hcond
      obtain ⟨hlen, hall⟩ := hcond
      cases h
      constructor
      · simpa [VALID_SHIFTS] using hlen
      · intro x hx
        rcases List.mem_map.mp hx with ⟨pv, hpv, rfl⟩
        have := List.all_eq_true.mp hall pv hpv
        cases pv <;> simp [isValidShiftStr] at this ⊢
        exact this
    · cases h
  | pyDict pm =>
    cases pm with
    | nil =>
      simp only [normalizePrefVal] at h
      cases h
      decide
    | cons p pm' =>
      simp only [normalizePrefVal] at h
      rcases exBind_ok h with ⟨st, hst, hpure⟩
      have hinv : PrioInv st := by
        refine exFoldl_inv (fun acc x acc' hP hs => prioStep_inv hP hs) ?_ hst
        exact ⟨rfl, List.nodup_nil, by simp⟩
      have hperm : List.Perm (finishPriorities st.2.2) VALID_SHIFTS :=
        finishPriorities_perm (hinv.1 ▸ hinv.2.1) hinv.2.2
      have hl : l = finishPriorities st.2.2 := by
        simpa [Pure.pure, Except.pure] using hpure.symm
      subst hl
      exact ⟨hperm.length_eq.trans (by decide), fun x hx => hperm.mem_iff.mp hx⟩

theorem dayStep_ok_elim {acc : List (String × List String)} {kv : PyVal × PyVal}
    {out} (h : dayStep acc kv = .ok out) :
    ∃ day l, kv.1 = PyVal.pyStr day ∧ day ∈ DAYS_OF_WEEK ∧
      normalizePrefVal kv.2 = .ok l ∧ out = dictSet acc day l := by
  obtain ⟨k, v⟩ := kv
  cases k <;> simp only [dayStep] at h
  case pyNone => cases h
  case pyInt n => cases h
  case pyList l2 => cases h
  case pyDict d2 => cases h
  case pyStr day =>
    split at h
    · rcases exBind_ok h with ⟨l, h1, h2⟩
      refine ⟨day, l, rfl, by assumption, h1, ?_⟩
      have h3 : Except.ok (ε := SchedErr) (dictSet acc day l) = .ok out := h2
      cases h3
      rfl
    · cases h

theorem processEmployee_ok_elim {v : PyVal} {dm} (h : processEmployee v = .ok dm) :
    ∃ dayMap, v = PyVal.pyDict dayMap ∧ exFoldl dayStep [] dayMap = .ok dm := by
  cases v <;> simp only [processEmployee] at h
  case pyNone => cases h
  case pyInt n => cases h
  case pyStr s => cases h
  case pyList l2 => cases h
  case pyDict dayMap =>
    refine ⟨dayMap, rfl, ?_⟩
    split at h
    · cases h
    · rcases exBind_ok h with ⟨normalized, h1, h2⟩
      split at h2
      · cases h2
      · have h3 : Except.ok (ε := SchedErr) normalized = .ok dm := h2
        cases h3
        exact h1

theorem empStep_ok_elim {kv : PyVal × PyVal} {p} (h : empStep kv = .ok p) :
    kv.1 = PyVal.pyStr p.1 ∧ processEmployee kv.2 = .ok p.2 := by
  obtain ⟨k, v⟩ := kv
  cases k <;> simp only [empStep] at h
  case pyNone => cases h
  case pyInt n => cases h
  case pyList l2 => cases h
  case pyDict d2 => cases h
  case pyStr name =>
    split at h
    · cases h
    · rcases exBind_ok h with ⟨dm, h1, h2⟩
      have h3 : Except.ok (ε := SchedErr) (name, dm) = .ok p := h2
      cases h3
      exact ⟨rfl, h1⟩

theorem collect_ok_elim {raw : PyVal} {norm}
    (h : collect_employee_preferences raw = .ok norm) :
    ∃ kvs names, raw = PyVal.pyDict kvs ∧ exMap keyStr kvs = .ok names ∧
      (names.map stripLower).Nodup ∧ exMap empStep kvs = .ok norm := by
  cases raw <;> simp only [collect_employee_preferences] at h
  case pyNone => cases h
  case pyInt n => cases h
  case pyStr s => cases h
  case pyList l2 => cases h
  case pyDict kvs =>
    refine ⟨kvs, ?_⟩
    split at h
    · cases h
    · rcases exBind_ok h with ⟨names, h1, h2⟩
      split at h2
      · exact ⟨names, rfl, h1, by assumption, h2⟩
      · cases h2

theorem forall2_mem_right {α β : Type _} {R : α → β → Prop} :
    ∀ {xs : List α} {ys : List β}, List.Forall₂ R xs ys →
      ∀ b ∈ ys, ∃ a ∈ xs, R a b := by
  intro xs ys hf
  induction hf with
  | nil => intro b hb; cases hb
  | cons hR htail ih =>
    intro b hb
    rcases List.mem_cons.mp hb with rfl | hb
    · exact ⟨_, List.mem_cons_self _ _, hR⟩
    · obtain ⟨a, ha, hRa⟩ := ih b hb
      exact ⟨a, List.mem_cons_of_mem _ ha, hRa⟩

theorem forall2_mem_left {α β : Type _} {R : α → β → Prop} :
    ∀ {xs : List α} {ys : List β}, List.Forall₂ R xs ys →
      ∀ a ∈ xs, ∃ b ∈ ys, R a b := by
  intro xs ys hf
  induction hf with
  | nil => intro a ha; cases ha
  | cons hR htail ih =>
    intro a ha
    rcases List.mem_cons.mp ha with rfl | ha
    · exact ⟨_, List.mem_cons_self _ _, hR⟩
    · obtain ⟨b, hb, hRb⟩ := ih a ha
      exact ⟨b, List.mem_cons_of_mem _ hb, hRb⟩

theorem forall2_map_eq {α β γ : Type _} {R : α → β → Prop} {f : α → γ} {g : β → γ}
    (hfg : ∀ a b, R a b → f a = g b) :
    ∀ {xs : List α} {ys : List β}, List.Forall₂ R xs ys → xs.map f = ys.map g := by
  intro xs ys hf
  induction hf with
  | nil => rfl
  | cons hR htail ih => simp [hfg _ _ hR, ih]

/-- Claim C1 (amended): every normalized per-day value on any accepted
input is a list of exactly three valid shift names (possibly with
repetitions, which the verbatim list form can introduce). -/
theorem collect_values_length_three_valid (raw : PyVal)
    (norm : List (String × List (String × List String)))
    (h : collect_employee_preferences raw = .ok norm) :
    ∀ p ∈ norm, ∀ q ∈ p.2, q.2.length = 3 ∧ ∀ x ∈ q.2, x ∈ VALID_SHIFTS := by
  obtain ⟨kvs, names, rfl, h1, h2, h3⟩ := collect_ok_elim h
  intro p hp
  obtain ⟨kv, hkv, hstep⟩ := forall2_mem_right (exMap_forall2 h3) p hp
  obtain ⟨hk1, hPE⟩ := empStep_ok_elim hstep
  obtain ⟨dayMap, hveq, hfold⟩ := processEmployee_ok_elim hPE
  have hQ : ∀ q ∈ ([] : List (String × List String)),
      q.2.length = 3 ∧ ∀ x ∈ q.2, x ∈ VALID_SHIFTS := by
    intro q hq; cases hq
  refine exFoldl_inv (P := fun acc => ∀ q ∈ acc, q.2.length = 3 ∧ ∀ x ∈ q.2, x ∈ VALID_SHIFTS)
    ?_ hQ hfold
  intro acc x acc' hP hs
  obtain ⟨day, l, _, _, hnl, rfl⟩ := dayStep_ok_elim hs
  intro q hq
  rcases mem_dictSet hq with rfl | hq
  · exact normalizePrefVal_ok hnl
  · exact hP q hq

theorem dayFold_frame :
    ∀ {items : List (PyVal × PyVal)} {acc out : List (String × List String)}
      {d : String},
      (∀ kv ∈ items, kv.1 ≠ PyVal.pyStr d) →
      exFoldl dayStep acc items = .ok out → dictGet out d = dictGet acc d := by
  intro items
  induction items with
  | nil =>
    intro acc out d _ h
    simp only [exFoldl] at h
    cases h
    rfl
  | cons kv rest ih =>
    intro acc out d hne h
    simp only [exFoldl] at h
    rcases exBind_ok h with ⟨acc1, hstep, hrest⟩
    obtain ⟨day, l, hk, _, _, rfl⟩ := dayStep_ok_elim hstep
    have hdd : d ≠ day := by
      intro hdd
      exact hne kv (List.mem_cons_self _ _) (by rw [hk, hdd])
    rw [ih (fun kv2 hkv2 => hne kv2 (List.mem_cons_of_mem _ hkv2)) hrest]
    exact dictGet_dictSet_other acc day d l hdd

theorem dayFold_lookup :
    ∀ {items : List (PyVal × PyVal)} {acc out : List (String × List String)}
      {d : String} {pv : PyVal},
      (items.map Prod.fst).Nodup → (PyVal.pyStr d, pv) ∈ items →
      exFoldl dayStep acc items = .ok out →
      ∃ l, normalizePrefVal pv = .ok l ∧ dictGet out d = some l := by
  intro items
  induction items with
  | nil => intro acc out d pv _ hmem; cases hmem
  | cons kv rest ih =>
    intro acc out d pv hnod hmem h
    simp only [exFoldl] at h
    rcases exBind_ok h with ⟨acc1, hstep, hrest⟩
    rcases List.mem_cons.mp hmem with rfl | hmem
    · obtain ⟨day, l, hk, _, hnl, rfl⟩ := dayStep_ok_elim hstep
      have hday : day = d := by
        have h6 : PyVal.pyStr d = PyVal.pyStr day := hk
        cases h6
        rfl
      subst hday
      refine ⟨l, hnl, ?_⟩
      have hrest_ne : ∀ kv2 ∈ rest, kv2.1 ≠ PyVal.pyStr day := by
        intro kv2 hkv2 heq
        have h7 : PyVal.pyStr day ∈ rest.map Prod.fst :=
          List.mem_map.mpr ⟨kv2, hkv2, heq⟩
        exact (List.nodup_cons.mp hnod).1 h7
      rw [dayFold_frame hrest_ne hrest]
      exact dictGet_dictSet_self acc day l
    · exact ih (List.nodup_cons.mp hnod).2 hmem hrest

theorem collect_keys_eq :
    ∀ {kvs : List (PyVal × PyVal)} {norm names},
      exMap empStep kvs = .ok norm → exMap keyStr kvs = .ok names →
      norm.map Prod.fst = names := by
  intro kvs
  induction kvs with
  | nil =>
    intro norm names h3 h1
    simp only [exMap] at h3 h1
    cases h3; cases h1; rfl
  | cons kv rest ih =>
    intro norm names h3 h1
    simp only [exMap] at h3 h1
    rcases exBind_ok h3 with ⟨p, hp, h3b⟩
    rcases exBind_ok h3b with ⟨normTail, hnormTail, h3c⟩
    have e3 : Except.ok (ε := SchedErr) (p :: normTail) = .ok norm := h3c
    cases e3
    rcases exBind_ok h1 with ⟨n, hn, h1b⟩
    rcases exBind_ok h1b with ⟨namesTail, hnamesTail, h1c⟩
    have e1 : Except.ok (ε := SchedErr) (n :: namesTail) = .ok names := h1c
    cases e1
    have he := (empStep_ok_elim hp).1
    have hnp : n = p.1 := by
      unfold keyStr at hn
      rw [he] at hn
      have h4 : Except.ok (ε := SchedErr) p.1 = .ok n := hn
      cases h4
      rfl
    simp [ih hnormTail hnamesTail, hnp]

theorem dictGet_of_mem_nodup {α : Type _} :
    ∀ {m : List (String × α)} {k : String} {v : α},
      (m.map Prod.fst).Nodup → (k, v) ∈ m → dictGet m k = some v := by
  intro m
  induction m with
  | nil => intro k v _ hm; cases hm
  | cons p rest ih =>
    intro k v hnod hm
    obtain ⟨k0, v0⟩ := p
    rcases List.mem_cons.mp hm with heq | hm
    · cases heq
      simp [dictGet]
    · have hne : ¬ (k0 = k) := by
        intro he
        subst he
        have hmm : k0 ∈ rest.map Prod.fst := List.mem_map.mpr ⟨(k0, v), hm, rfl⟩
        exact (List.nodup_cons.mp hnod).1 hmm
      simp only [dictGet, hne, if_false]
      exact ih (List.nodup_cons.mp hnod).2 hm

theorem stringCaseNorm_valid {s : String} (hmem : s ∈ VALID_SHIFTS) :
    stringCaseNorm s = .ok (s :: VALID_SHIFTS.filter (fun o => o ≠ s)) := by
  fin_cases hmem <;> rfl

/-- Claim C2 (amended): on an accepted input, a raw per-day preference
that is a single string whose lowered and trimmed form is the valid
shift `s` normalizes to `s` first, followed by the remaining two
shifts in `VALID_SHIFTS` declaration order (morning, afternoon,
evening) — not in alphabetical order. -/
theorem string_pref_normalization
    (kvs dayMap : List (PyVal × PyVal))
    (norm : List (String × List (String × List String)))
    (name str d s : String)
    (hok : collect_employee_preferences (PyVal.pyDict kvs) = .ok norm)
    (hkv : (PyVal.pyStr name, PyVal.pyDict dayMap) ∈ kvs)
    (hday : (PyVal.pyStr d, PyVal.pyStr str) ∈ dayMap)
    (hdnod : (dayMap.map Prod.fst).Nodup)
    (hs : lowerStrip str = s) (hmem : s ∈ VALID_SHIFTS) :
    ∃ dm, dictGet norm name = some dm ∧
      dictGet dm d = some (s :: VALID_SHIFTS.filter (fun o => o ≠ s)) := by
  obtain ⟨kvs2, names, heq, h1, h2, h3⟩ := collect_ok_elim hok
  cases heq
  have hkeys : norm.map Prod.fst = names := collect_keys_eq h3 h1
  have hnodN : names.Nodup := List.Nodup.of_map _ h2
  have hnorm_nod : (norm.map Prod.fst).Nodup := by rw [hkeys]; exact hnodN
  obtain ⟨p, hp, hstep⟩ := forall2_mem_left (exMap_forall2 h3) _ hkv
  obtain ⟨hk1, hPE⟩ := empStep_ok_elim hstep
  have hname : p.1 = name := by
    have h4 : PyVal.pyStr name = PyVal.pyStr p.1 := hk1
    cases h4
    rfl
  obtain ⟨dayMap2, hveq, hfold⟩ := processEmployee_ok_elim hPE
  have hdm : dayMap2 = dayMap := by
    have h5 : PyVal.pyDict dayMap = PyVal.pyDict dayMap2 := hveq
    cases h5
    rfl
  subst hdm
  obtain ⟨l, hnl, hlook⟩ := dayFold_lookup hdnod hday hfold
  have hform : normalizePrefVal (PyVal.pyStr str) =
      .ok (s :: VALID_SHIFTS.filter (fun o => o ≠ s)) := by
    show stringCaseNorm (lowerStrip str) = _
    rw [hs]
    exact stringCaseNorm_valid hmem
  have hleq : l = s :: VALID_SHIFTS.filter (fun o => o ≠ s) := by
    rw [hform] at hnl
    cases hnl
    rfl
  refine ⟨p.2, ?_, by rw [hlook, hleq]⟩
  have hpmem : (name, p.2) ∈ norm := by
    rw [← hname]
    exact hp
  exact dictGet_of_mem_nodup hnorm_nod hpmem

/-- Claim C9 (amended): the normalizer keys its result by the employee
identifiers exactly as given in the input — lower-casing is used only
for the duplicate check, not for the returned keys. -/
theorem collect_keys_are_original (raw : PyVal)
    (kvs : List (PyVal × PyVal))
    (norm : List (String × List (String × List String)))
    (h : collect_employee_preferences raw = .ok norm)
    (hraw : raw = PyVal.pyDict kvs) :
    kvs.map Prod.fst = norm.map (fun p => PyVal.pyStr p.1) := by
  subst hraw
  obtain ⟨kvs2, names, heq, h1, h2, h3⟩ := collect_ok_elim h
  cases heq
  exact forall2_map_eq (R := fun x y => empStep x = Except.ok y)
    (f := Prod.fst) (g := fun p => PyVal.pyStr p.1)
    (fun a b hab => (empStep_ok_elim hab).1) (exMap_forall2 h3)

/-! ## Engine lemmas -/

theorem foldl_inv {σ α : Type _} {P : σ → Prop} {F : σ → α → σ} :
    ∀ {l : List α} {acc : σ},
      (∀ acc x, x ∈ l → P acc → P (F acc x)) → P acc → P (l.foldl F acc) := by
  intro l
  induction l with
  | nil => intro acc _ hP; exact hP
  | cons x t ih =>
    intro acc hstep hP
    exact ih (fun a y hy => hstep a y (List.mem_cons_of_mem _ hy))
      (hstep acc x (List.mem_cons_self _ _) hP)

theorem sum_map_update {α : Type _} :
    ∀ (L : List α) (f g : α → Nat) (x : α), L.Nodup → x ∈ L →
      (∀ y ∈ L, y ≠ x → f y = g y) →
      (L.map g).sum + f x = (L.map f).sum + g x := by
  intro L
  induction L with
  | nil => intro f g x _ hx; cases hx
  | cons h t ih =>
    intro f g x hnd hx hcong
    rcases List.mem_cons.mp hx with rfl | hx
    · have ht : ∀ y ∈ t, f y = g y := by
        intro y hy
        have hyx : y ≠ x := by
          intro he
          subst he
          exact (List.nodup_cons.mp hnd).1 hy
        exact hcong y (List.mem_cons_of_mem _ hy) hyx
      have hmt : t.map f = t.map g := List.map_congr_left ht
      simp only [List.map_cons, List.sum_cons, hmt]
      omega
    · have hfx : f h = g h := by
        have hhx : h ≠ x := by
          intro he
          subst he
          exact (List.nodup_cons.mp hnd).1 hx
        exact hcong h (List.mem_cons_self _ _) hhx
      have hih := ih f g x (List.nodup_cons.mp hnd).2 hx
        (fun y hy hyx => hcong y (List.mem_cons_of_mem _ hy) hyx)
      simp only [List.map_cons, List.sum_cons, hfx]
      omega

theorem count_append_singleton (l : List String) (e e' : String) :
    (l ++ [e]).count e' = l.count e' + (if e' = e then 1 else 0) := by
  by_cases h : e' = e <;> simp [List.count_append, h]

theorem schedCount_assign (st : EState) (d s e : String)
    (hd : d ∈ DAYS_OF_WEEK) (hs : s ∈ VALID_SHIFTS) (e' : String) :
    schedCount (assignEmp st d s e).sched e' =
      schedCount st.sched e' + (if e' = e then 1 else 0) := by
  have hDnd : DAYS_OF_WEEK.Nodup := by decide
  have hSnd : VALID_SHIFTS.Nodup := by decide
  have hinner : ∀ d', d' ≠ d →
      (VALID_SHIFTS.map (fun s' => ((assignEmp st d s e).sched d' s').count e')).sum =
      (VALID_SHIFTS.map (fun s' => (st.sched d' s').count e')).sum := by
    intro d' hne
    congr 1
    refine List.map_congr_left ?_
    intro s' _
    simp [assignEmp, hne]
  have hcell : ∀ s', s' ≠ s →
      ((assignEmp st d s e).sched d s').count e' = (st.sched d s').count e' := by
    intro s' hne
    simp [assignEmp, hne]
  have hself : ((assignEmp st d s e).sched d s).count e' =
      (st.sched d s).count e' + (if e' = e then 1 else 0) := by
    simp only [assignEmp, eq_self_iff_true, and_self, if_true]
    exact count_append_singleton _ e e'
  have hin := sum_map_update VALID_SHIFTS
    (fun s' => ((assignEmp st d s e).sched d s').count e')
    (fun s' => (st.sched d s').count e') s hSnd hs (fun y _ hy => hcell y hy)
  have hout := sum_map_update DAYS_OF_WEEK
    (fun d' => (VALID_SHIFTS.map (fun s' => ((assignEmp st d s e).sched d' s').count e')).sum)
    (fun d' => (VALID_SHIFTS.map (fun s' => (st.sched d' s').count e')).sum)
    d hDnd hd (fun y _ hy => hinner y hy)
  simp only [schedCount]
  simp only [] at hin hout
  omega

theorem assign_inv5 {st : EState} {d s e : String}
    (hd : d ∈ DAYS_OF_WEEK) (hs : s ∈ VALID_SHIFTS)
    (hI : Inv5 st) (hlt : st.count e < 5) : Inv5 (assignEmp st d s e) := by
  intro e'
  have h1 := schedCount_assign st d s e hd hs e'
  have hc : (assignEmp st d s e).count e' = st.count e' + (if e' = e then 1 else 0) := by
    by_cases he : e' = e <;> simp [assignEmp, he]
  constructor
  · rw [h1, hc, (hI e').1]
  · by_cases he : e' = e
    · subst he
      have hc2 : (assignEmp st d s e').count e' = st.count e' + 1 := by
        simp [assignEmp]
      rw [hc2]
      omega
    · have hc2 : (assignEmp st d s e).count e' = st.count e' := by
        simp [assignEmp, he]
      rw [hc2]
      exact (hI e').2

theorem walkStep_inv5 {d s : String} (hd : d ∈ DAYS_OF_WEEK) (hs : s ∈ VALID_SHIFTS)
    {acc : EState × List String × Nat} {e : String}
    (hI : Inv5 acc.1) : Inv5 (walkStep d s acc e).1 := by
  unfold walkStep
  split
  · exact hI
  · split
    · exact hI
    · rename_i hcond
      push_neg at hcond
      exact assign_inv5 hd hs hI hcond.1

theorem fb1Step_inv5 {d s : String} (hd : d ∈ DAYS_OF_WEEK) (hs : s ∈ VALID_SHIFTS)
    {acc : EState × List String × Nat} {e : String}
    (hI : Inv5 acc.1) : Inv5 (fb1Step d s acc e).1 := by
  unfold fb1Step
  split
  · exact hI
  · split
    · rename_i hcond
      have h2 : Inv5 (assignEmp acc.1 d s e) := assign_inv5 hd hs hI hcond.1
      intro e'
      exact h2 e'
    · exact hI

theorem finalStep_inv5 {d s : String} (hd : d ∈ DAYS_OF_WEEK) (hs : s ∈ VALID_SHIFTS)
    {acc : EState × List String × Nat} {e : String}
    (hI : Inv5 acc.1) : Inv5 (finalStep d s acc e).1 := by
  unfold finalStep
  split
  · exact hI
  · split
    · rename_i hcond
      have h2 : Inv5 (assignEmp acc.1 d s e) := assign_inv5 hd hs hI hcond
      intro e'
      exact h2 e'
    · exact hI

theorem cellWalk_inv5 {emps : List String} {pref : String → String → List String}
    {d s : String} {acc : EState × List String}
    (hd : d ∈ DAYS_OF_WEEK) (hs : s ∈ VALID_SHIFTS)
    (hI : Inv5 acc.1) : Inv5 (cellWalk emps pref d s acc).1 := by
  unfold cellWalk
  exact foldl_inv (P := fun t : EState × List String × Nat => Inv5 t.1)
    (fun a x _ hP => walkStep_inv5 hd hs hP) hI

theorem cellFB1_inv5 {emps : List String} {d s : String}
    {w : EState × List String × Nat}
    (hd : d ∈ DAYS_OF_WEEK) (hs : s ∈ VALID_SHIFTS)
    (hI : Inv5 w.1) : Inv5 (cellFB1 emps d s w).1 := by
  unfold cellFB1
  split
  · exact foldl_inv (P := fun t : EState × List String × Nat => Inv5 t.1)
      (fun a x _ hP => fb1Step_inv5 hd hs hP) hI
  · exact hI

theorem cellFinal_inv5 {emps : List String} {d s : String}
    {w : EState × List String × Nat}
    (hd : d ∈ DAYS_OF_WEEK) (hs : s ∈ VALID_SHIFTS)
    (hI : Inv5 w.1) : Inv5 (cellFinal emps d s w).1 := by
  unfold cellFinal
  split
  · exact foldl_inv (P := fun t : EState × List String × Nat => Inv5 t.1)
      (fun a x _ hP => finalStep_inv5 hd hs hP) hI
  · exact hI

theorem processCell_inv5 {emps : List String} {pref : String → String → List String}
    {d : String} {acc : EState × List String} {s : String}
    (hd : d ∈ DAYS_OF_WEEK) (hs : s ∈ VALID_SHIFTS)
    (hI : Inv5 acc.1) : Inv5 (processCell emps pref d acc s).1 := by
  unfold processCell
  exact cellFinal_inv5 hd hs (cellFB1_inv5 hd hs (cellWalk_inv5 hd hs hI))

theorem scheduleCore_inv5 (emps : List String) (pref : String → String → List String) :
    Inv5 (scheduleCore emps pref) := by
  unfold scheduleCore
  refine foldl_inv (P := Inv5) ?_ ?_
  · intro st d hd hP
    unfold processDay
    exact (foldl_inv (P := fun t : EState × List String => Inv5 t.1)
      (fun a s hs hPa => processCell_inv5 hd hs hPa) hP :
        Inv5 ((VALID_SHIFTS.foldl (processCell emps pref d) (st, [])).1))
  · intro e
    exact ⟨rfl, Nat.zero_le 5⟩

theorem coreResult_ok_elim {raw : PyVal} {st : EState} (h : coreResult raw = .ok st) :
    ∃ norm, collect_employee_preferences raw = .ok norm ∧
      ¬ (norm.map Prod.fst).length < 6 ∧
      st = scheduleCore (norm.map Prod.fst) (prefLookup norm) := by
  cases raw <;> simp only [coreResult] at h
  case pyNone => cases h
  case pyInt n => cases h
  case pyStr s => cases h
  case pyList l2 => cases h
  case pyDict kvs =>
    rcases exBind_ok h with ⟨norm, h1, h2⟩
    split at h2
    · cases h2
    · have h3 : Except.ok (ε := SchedErr)
          (scheduleCore (norm.map Prod.fst) (prefLookup norm)) = .ok st := h2
      cases h3
      exact ⟨norm, h1, by assumption, rfl⟩

theorem generate_schedule_ok_elim {raw : PyVal}
    {sched : List (String × List (String × List String))}
    (h : generate_schedule raw = .ok sched) :
    ∃ st, coreResult raw = .ok st ∧ sched = mkSchedule st.sched := by
  unfold generate_schedule at h
  rcases exBind_ok h with ⟨st, h1, h2⟩
  have h3 : Except.ok (ε := SchedErr) (mkSchedule st.sched) = .ok sched := h2
  cases h3
  exact ⟨st, h1, rfl⟩

theorem schedFlat_count (f : String → String → List String) (e : String) :
    (schedFlat (mkSchedule f)).count e = schedCount f e := by
  simp only [schedFlat, mkSchedule, schedCount, DAYS_OF_WEEK, VALID_SHIFTS,
    List.map_cons, List.map_nil, List.flatMap_cons, List.flatMap_nil,
    List.count_append, List.sum_cons, List.sum_nil, List.append_nil]
  omega

/-- Claim C5: on every accepted input, no employee occurs in more than
5 entries in total across the 21 day-shift lists of the returned
schedule — every assignment site is guarded by the 5-day cap. -/
theorem weekly_cap (raw : PyVal)
    (sched : List (String × List (String × List String)))
    (h : generate_schedule raw = .ok sched) :
    ∀ e, (schedFlat sched).count e ≤ 5 := by
  obtain ⟨st, hcore, rfl⟩ := generate_schedule_ok_elim h
  obtain ⟨norm, h1, h2, rfl⟩ := coreResult_ok_elim hcore
  intro e
  rw [schedFlat_count]
  have hinv := scheduleCore_inv5 (norm.map Prod.fst) (prefLookup norm) e
  rw [hinv.1]
  exact hinv.2

theorem assignEmp_sched_self (st : EState) (d s e : String) :
    (assignEmp st d s e).sched d s = st.sched d s ++ [e] := by
  simp [assignEmp]

theorem assignEmp_sched_other (st : EState) (d s e d' s' : String)
    (h : ¬ (d' = d ∧ s' = s)) :
    (assignEmp st d s e).sched d' s' = st.sched d' s' := by
  simp only [assignEmp]
  rw [if_neg h]

theorem assignEmp_count (st : EState) (d s e e' : String) :
    (assignEmp st d s e).count e' = st.count e' + (if e' = e then 1 else 0) := by
  by_cases he : e' = e <;> simp [assignEmp, he]

theorem walk_spec (d s : String) :
    ∀ (ordered : List String) (st : EState) (today : List String) (p : Nat),
      ∃ fresh, WalkOut d s st today p ordered
        (ordered.foldl (walkStep d s) (st, today, p)) fresh := by
  intro ordered
  induction ordered with
  | nil =>
    intro st today p
    refine ⟨[], by simp, by simp, ?_, by intro e; simp, by simp, fun d' s' _ => rfl,
      rfl, rfl, le_max_left p 2, ?_, List.nodup_nil⟩
    · intro e he; cases he
    · intro _ e he; cases he
  | cons x rest ih =>
    intro st today p
    have hfold : (x :: rest).foldl (walkStep d s) (st, today, p) =
        rest.foldl (walkStep d s) (walkStep d s (st, today, p) x) := rfl
    by_cases hp : p ≥ 2
    · have hstep : walkStep d s (st, today, p) x = (st, today, p) := by
        unfold walkStep
        rw [if_pos hp]
      obtain ⟨fresh, h1, h2, h3, h4, h5, h6, h7, h8, h9, h10, h11⟩ := ih st today p
      rw [hfold, hstep]
      refine ⟨fresh, h1, h2, ?_, h4, h5, h6, h7, h8, h9, ?_, h11⟩
      · intro e he
        exact ⟨List.mem_cons_of_mem _ (h3 e he).1, (h3 e he).2.1, (h3 e he).2.2⟩
      · intro hlt
        exfalso
        omega
    · by_cases helig : st.count x ≥ 5 ∨ x ∈ today
      · have hstep : walkStep d s (st, today, p) x = (st, today, p) := by
          unfold walkStep
          rw [if_neg hp, if_pos helig]
        obtain ⟨fresh, h1, h2, h3, h4, h5, h6, h7, h8, h9, h10, h11⟩ := ih st today p
        rw [hfold, hstep]
        refine ⟨fresh, h1, h2, ?_, h4, h5, h6, h7, h8, h9, ?_, h11⟩
        · intro e he
          exact ⟨List.mem_cons_of_mem _ (h3 e he).1, (h3 e he).2.1, (h3 e he).2.2⟩
        · intro hlt e he
          rcases List.mem_cons.mp he with rfl | he
          · rcases helig with hc | ht
            · left
              rw [h4 e]
              omega
            · right
              rw [h1]
              exact List.mem_append.mpr (Or.inl ht)
          · exact h10 hlt e he
      · have hstep : walkStep d s (st, today, p) x =
            (assignEmp st d s x, today ++ [x], p + 1) := by
          unfold walkStep
          rw [if_neg hp, if_neg helig]
        push_neg at helig
        obtain ⟨hcx, htx⟩ := helig
        have hcx' : st.count x < 5 := by omega
        obtain ⟨fresh, h1, h2, h3, h4, h5, h6, h7, h8, h9, h10, h11⟩ :=
          ih (assignEmp st d s x) (today ++ [x]) (p + 1)
        rw [hfold, hstep]
        have hxt : x ∈ today ++ [x] := List.mem_append.mpr (Or.inr (by simp))
        have hxf : x ∉ fresh := fun hf => (h3 x hf).2.1 hxt
        refine ⟨x :: fresh, ?_, ?_, ?_, ?_, ?_, ?_, ?_, ?_, ?_, ?_, ?_⟩
        · rw [h1, List.append_assoc]
          rfl
        · rw [h2]
          simp only [List.length_cons]
          omega
        · intro e he
          rcases List.mem_cons.mp he with rfl | he
          · exact ⟨List.mem_cons_self _ _, htx, hcx'⟩
          · have h3e := h3 e he
            have hneq : e ≠ x := by
              intro heq
              exact h3e.2.1 (heq ▸ hxt)
            refine ⟨List.mem_cons_of_mem _ h3e.1, ?_, ?_⟩
            · intro ht
              exact h3e.2.1 (List.mem_append.mpr (Or.inl ht))
            · have := h3e.2.2
              rw [assignEmp_count] at this
              simp only [hneq, if_false] at this
              omega
        · intro e
          rw [h4 e, assignEmp_count]
          by_cases hex : e = x
          · subst hex
            simp [hxf]
          · simp [hex, List.mem_cons]
        · rw [h5, assignEmp_sched_self, List.append_assoc]
          rfl
        · intro d' s' hne
          rw [h6 d' s' hne, assignEmp_sched_other st d s x d' s' hne]
        · rw [h7]
          rfl
        · rw [h8]
          rfl
        · omega
        · intro hlt e he
          rcases List.mem_cons.mp he with rfl | he
          · right
            rw [h1]
            exact List.mem_append.mpr (Or.inl hxt)
          · exact h10 hlt e he
        · exact List.nodup_cons.mpr ⟨hxf, h11⟩

theorem le_foldr_max : ∀ (l : List Nat), ∀ a ∈ l, a ≤ l.foldr max 0 := by
  intro l
  induction l with
  | nil => intro a ha; cases ha
  | cons h t ih =>
    intro a ha
    rcases List.mem_cons.mp ha with rfl | ha
    · exact le_max_left _ _
    · exact (ih a ha).trans (le_max_right _ _)

theorem mem_orderedCandidates {emps : List String}
    {pref : String → String → List String} {st : EState} {today : List String}
    {d s e : String} (he : e ∈ emps) (hc : st.count e < 5) (ht : e ∉ today) :
    e ∈ orderedCandidates emps pref st today d s := by
  unfold orderedCandidates
  have helig : e ∈ emps.filter (fun e => ¬ (st.count e ≥ 5 ∨ e ∈ today)) := by
    refine List.mem_filter.mpr ⟨he, ?_⟩
    simp only [decide_eq_true_eq]
    push_neg
    exact ⟨by omega, ht⟩
  set rank := fun e => rankOf (pref e d) s with hrank
  have hle : rank e ≤ ((emps.filter (fun e => ¬ (st.count e ≥ 5 ∨ e ∈ today))).map
      rank).foldr max 0 :=
    le_foldr_max _ _ (List.mem_map_of_mem rank helig)
  refine List.mem_flatMap.mpr ⟨rank e, List.mem_range.mpr (by omega), ?_⟩
  refine mem_shuffle.mpr (List.mem_filter.mpr ⟨helig, by simp⟩)

theorem fb1Step_classify (d s : String) (acc : EState × List String × Nat)
    (e : String) (h : ¬ (acc.1.count e < 5 ∧ e ∉ acc.2.1)) :
    fb1Step d s acc e = acc := by
  unfold fb1Step
  by_cases hge : acc.2.2 ≥ 2
  · rw [if_pos hge]
  · rw [if_neg hge, if_neg h]

theorem fb1_noop {d s : String} {emps : List String} :
    ∀ {w : EState × List String × Nat},
      (∀ e ∈ emps, ¬ (w.1.count e < 5 ∧ e ∉ w.2.1)) →
      emps.foldl (fb1Step d s) w = w := by
  induction emps with
  | nil => intro w _; rfl
  | cons x t ih =>
    intro w h
    have hx : fb1Step d s w x = w := fb1Step_classify d s w x (h x (List.mem_cons_self _ _))
    calc (x :: t).foldl (fb1Step d s) w = t.foldl (fb1Step d s) (fb1Step d s w x) := rfl
      _ = t.foldl (fb1Step d s) w := by rw [hx]
      _ = w := ih (fun e he => h e (List.mem_cons_of_mem _ he))

theorem post_walk_no_eligible {emps : List String}
    {pref : String → String → List String} {d s : String}
    {acc : EState × List String}
    (hlt : (cellWalk emps pref d s acc).2.2 < 2) :
    ∀ e ∈ emps, ¬ ((cellWalk emps pref d s acc).1.count e < 5 ∧
      e ∉ (cellWalk emps pref d s acc).2.1) := by
  unfold cellWalk at hlt ⊢
  obtain ⟨fresh, h1, h2, h3, h4, h5, h6, h7, h8, h9, h10, h11⟩ :=
    walk_spec d s (orderedCandidates emps pref acc.1 acc.2 d s) acc.1 acc.2 0
  intro e he hcontra
  obtain ⟨hc, ht⟩ := hcontra
  have hpre_t : e ∉ acc.2 := by
    intro hmem
    exact ht (by rw [h1]; exact List.mem_append.mpr (Or.inl hmem))
  have hpre_c : acc.1.count e < 5 := by
    have := h4 e
    by_cases hef : e ∈ fresh <;> simp [hef] at this <;> omega
  have hord : e ∈ orderedCandidates emps pref acc.1 acc.2 d s :=
    mem_orderedCandidates he hpre_c hpre_t
  rcases h10 hlt e hord with h | h
  · exact absurd hc (by omega)
  · exact ht h

theorem cellFB1_noop (emps : List String) (pref : String → String → List String)
    (d s : String) (acc : EState × List String) :
    cellFB1 emps d s (cellWalk emps pref d s acc) = cellWalk emps pref d s acc := by
  unfold cellFB1
  split
  · exact fb1_noop (post_walk_no_eligible (by assumption))
  · rfl

theorem processCell_eq_noFF1 (emps : List String)
    (pref : String → String → List String) (d : String)
    (acc : EState × List String) (s : String) :
    processCell emps pref d acc s = processCellNoFirstFallback emps pref d acc s := by
  unfold processCell processCellNoFirstFallback
  rw [cellFB1_noop]

theorem generate_schedule_eq_core (raw : PyVal) :
    generate_schedule raw = generate_schedule_noFirstFallback raw := by
  have hcell : processCell = processCellNoFirstFallback := by
    funext emps pref d acc s
    exact processCell_eq_noFF1 emps pref d acc s
  have hday : processDay = fun emps pref st d =>
      (VALID_SHIFTS.foldl (processCellNoFirstFallback emps pref d) (st, [])).1 := by
    funext emps pref st d
    unfold processDay
    rw [hcell]
  cases raw with
  | pyDict kvs =>
    simp only [generate_schedule, coreResult, generate_schedule_noFirstFallback,
      scheduleCore, hday]
    cases h : collect_employee_preferences (PyVal.pyDict kvs) with
    | error e => simp [h, Bind.bind, Except.bind]
    | ok norm =>
      by_cases hlen : norm.length < 6
      · simp [h, Bind.bind, Except.bind, hlen, throw, throwThe, MonadExceptOf.throw]
      · simp [h, Bind.bind, Except.bind, hlen, Pure.pure, Except.pure]
  | pyNone => rfl
  | pyStr s => rfl
  | pyInt n => rfl
  | pyList l => rfl

theorem walkStep_usedFirst (d s : String) (acc : EState × List String × Nat)
    (e : String) : (walkStep d s acc e).1.usedFirst = acc.1.usedFirst := by
  unfold walkStep
  split
  · rfl
  · split
    · rfl
    · rfl

theorem finalStep_usedFirst (d s : String) (acc : EState × List String × Nat)
    (e : String) : (finalStep d s acc e).1.usedFirst = acc.1.usedFirst := by
  unfold finalStep
  split
  · rfl
  · split
    · rfl
    · rfl

theorem processCell_usedFirst (emps : List String)
    (pref : String → String → List String) (d : String)
    (acc : EState × List String) (s : String) :
    (processCell emps pref d acc s).1.usedFirst = acc.1.usedFirst := by
  unfold processCell
  rw [cellFB1_noop]
  have hwalk : ∀ (l : List String) (w : EState × List String × Nat),
      (l.foldl (walkStep d s) w).1.usedFirst = w.1.usedFirst := by
    intro l
    induction l with
    | nil => intro w; rfl
    | cons x t ih =>
      intro w
      calc ((x :: t).foldl (walkStep d s) w).1.usedFirst
          = (t.foldl (walkStep d s) (walkStep d s w x)).1.usedFirst := rfl
        _ = (walkStep d s w x).1.usedFirst := ih _
        _ = w.1.usedFirst := walkStep_usedFirst d s w x
  have hfin : ∀ (l : List String) (w : EState × List String × Nat),
      (l.foldl (finalStep d s) w).1.usedFirst = w.1.usedFirst := by
    intro l
    induction l with
    | nil => intro w; rfl
    | cons x t ih =>
      intro w
      calc ((x :: t).foldl (finalStep d s) w).1.usedFirst
          = (t.foldl (finalStep d s) (finalStep d s w x)).1.usedFirst := rfl
        _ = (finalStep d s w x).1.usedFirst := ih _
        _ = w.1.usedFirst := finalStep_usedFirst d s w x
  unfold cellFinal
  split
  · rw [hfin]
    unfold cellWalk
    rw [hwalk]
  · unfold cellWalk
    rw [hwalk]

theorem scheduleCore_usedFirst (emps : List String)
    (pref : String → String → List String) :
    (scheduleCore emps pref).usedFirst = false := by
  unfold scheduleCore
  refine foldl_inv (P := fun st : EState => st.usedFirst = false) ?_ rfl
  intro st dd _ hP
  unfold processDay
  exact foldl_inv
    (P := fun t : EState × List String => t.1.usedFirst = false)
    (F := processCell emps pref dd)
    (fun a s _ hPa => by
      show (processCell emps pref dd a s).1.usedFirst = false
      rw [processCell_usedFirst]
      exact hPa) hP

/-- Claim C10: the first fallback never assigns anyone — after an
incomplete candidate walk every still-eligible employee has already
been placed — so removing it leaves `generate_schedule` unchanged on
every input, and the instrumentation flag for the first fallback is
false on every run. -/
theorem first_fallback_never_assigns :
    (∀ raw, generate_schedule raw = generate_schedule_noFirstFallback raw) ∧
    ∀ emps pref, (scheduleCore emps pref).usedFirst = false :=
  ⟨generate_schedule_eq_core, scheduleCore_usedFirst⟩

theorem finalStep_keeps_true {d s : String} {acc : EState × List String × Nat}
    {e : String} (h : acc.1.usedFinal = true) :
    (finalStep d s acc e).1.usedFinal = true := by
  unfold finalStep
  split
  · exact h
  · split
    · rfl
    · exact h

theorem finalStep_classify (d s : String) (acc : EState × List String × Nat)
    (e : String) :
    finalStep d s acc e = acc ∨ (finalStep d s acc e).1.usedFinal = true := by
  unfold finalStep
  split
  · exact Or.inl rfl
  · split
    · exact Or.inr rfl
    · exact Or.inl rfl

theorem finalFold_keeps_true {d s : String} :
    ∀ (emps : List String) (w : EState × List String × Nat),
      w.1.usedFinal = true → (emps.foldl (finalStep d s) w).1.usedFinal = true := by
  intro emps
  induction emps with
  | nil => intro w h; exact h
  | cons x t ih =>
    intro w h
    exact ih (finalStep d s w x) (finalStep_keeps_true h)

theorem finalFold_false_noop {d s : String} :
    ∀ (emps : List String) (w : EState × List String × Nat),
      (emps.foldl (finalStep d s) w).1.usedFinal = false →
      emps.foldl (finalStep d s) w = w := by
  intro emps
  induction emps with
  | nil => intro w _; rfl
  | cons x t ih =>
    intro w h
    have hfold : (x :: t).foldl (finalStep d s) w =
        t.foldl (finalStep d s) (finalStep d s w x) := rfl
    rcases finalStep_classify d s w x with hid | htrue
    · rw [hfold, hid] at h ⊢
      exact ih w h
    · exfalso
      rw [hfold] at h
      rw [finalFold_keeps_true t _ htrue] at h
      cases h

theorem walkFold_usedFinal {d s : String} :
    ∀ (l : List String) (w : EState × List String × Nat),
      (l.foldl (walkStep d s) w).1.usedFinal = w.1.usedFinal := by
  intro l
  induction l with
  | nil => intro w; rfl
  | cons x t ih =>
    intro w
    have hstep : (walkStep d s w x).1.usedFinal = w.1.usedFinal := by
      unfold walkStep
      split
      · rfl
      · split
        · rfl
        · rfl
    calc ((x :: t).foldl (walkStep d s) w).1.usedFinal
        = (t.foldl (walkStep d s) (walkStep d s w x)).1.usedFinal := rfl
      _ = (walkStep d s w x).1.usedFinal := ih _
      _ = w.1.usedFinal := hstep

theorem processCell_stage (emps : List String)
    (pref : String → String → List String) (d : String)
    (acc : EState × List String) (s : String) :
    processCell emps pref d acc s =
      ((cellFinal emps d s (cellWalk emps pref d s acc)).1,
       (cellFinal emps d s (cellWalk emps pref d s acc)).2.1) := by
  unfold processCell
  rw [cellFB1_noop]

theorem cellFinal_false_noop {emps : List String} {d s : String}
    {w : EState × List String × Nat}
    (h : (cellFinal emps d s w).1.usedFinal = false) :
    cellFinal emps d s w = w := by
  unfold cellFinal at h ⊢
  split at h
  · rw [if_pos (by assumption)]
    exact finalFold_false_noop emps w h
  · rw [if_neg (by assumption)]

theorem processCell_final_mono {emps : List String}
    {pref : String → String → List String} {d : String}
    {acc : EState × List String} {s : String}
    (h : acc.1.usedFinal = true) :
    (processCell emps pref d acc s).1.usedFinal = true := by
  rw [processCell_stage]
  have hw : (cellWalk emps pref d s acc).1.usedFinal = true := by
    unfold cellWalk
    rw [walkFold_usedFinal]
    exact h
  unfold cellFinal
  split
  · exact finalFold_keeps_true emps _ hw
  · exact hw

/-- When the final fallback placed nobody in this cell, the cell's
effect is exactly the walk's: a duplicate-free batch `fresh`, disjoint
from the assigned-today set, appended to the `(d, s)` list and to the
today set, with all other cells untouched. -/
theorem processCell_no_final {emps : List String}
    {pref : String → String → List String} {d : String}
    {acc : EState × List String} {s : String}
    (hflag : (processCell emps pref d acc s).1.usedFinal = false) :
    ∃ fresh : List String,
      (processCell emps pref d acc s).2 = acc.2 ++ fresh ∧
      fresh.Nodup ∧ (∀ e ∈ fresh, e ∉ acc.2) ∧
      (processCell emps pref d acc s).1.sched d s = acc.1.sched d s ++ fresh ∧
      (∀ d' s', ¬ (d' = d ∧ s' = s) →
        (processCell emps pref d acc s).1.sched d' s' = acc.1.sched d' s') ∧
      acc.1.usedFinal = false := by
  rw [processCell_stage] at hflag ⊢
  have hnoop : cellFinal emps d s (cellWalk emps pref d s acc) =
      cellWalk emps pref d s acc := cellFinal_false_noop hflag
  rw [hnoop] at hflag ⊢
  obtain ⟨fresh, h1, h2, h3, h4, h5, h6, h7, h8, h9, h10, h11⟩ :=
    walk_spec d s (orderedCandidates emps pref acc.1 acc.2 d s) acc.1 acc.2 0
  have hWdef : cellWalk emps pref d s acc =
      (orderedCandidates emps pref acc.1 acc.2 d s).foldl (walkStep d s)
        (acc.1, acc.2, 0) := rfl
  rw [hWdef] at hflag ⊢
  refine ⟨fresh, h1, h11, fun e he => (h3 e he).2.1, h5, h6, ?_⟩
  rw [h8] at hflag
  exact hflag

theorem bool_ne_false {b : Bool} (h : ¬ b = false) : b = true := by
  cases b
  · exact absurd rfl h
  · rfl

theorem walkStep_sched_frame {d s d' s' : String} (h : ¬ (d' = d ∧ s' = s))
    (acc : EState × List String × Nat) (e : String) :
    (walkStep d s acc e).1.sched d' s' = acc.1.sched d' s' := by
  unfold walkStep
  split
  · rfl
  · split
    · rfl
    · exact assignEmp_sched_other acc.1 d s e d' s' h

theorem finalStep_sched_frame {d s d' s' : String} (h : ¬ (d' = d ∧ s' = s))
    (acc : EState × List String × Nat) (e : String) :
    (finalStep d s acc e).1.sched d' s' = acc.1.sched d' s' := by
  unfold finalStep
  split
  · rfl
  · split
    · exact assignEmp_sched_other acc.1 d s e d' s' h
    · rfl

theorem processCell_sched_frame {emps : List String}
    {pref : String → String → List String} {d : String}
    {acc : EState × List String} {s : String} {d' s' : String}
    (h : ¬ (d' = d ∧ s' = s)) :
    (processCell emps pref d acc s).1.sched d' s' = acc.1.sched d' s' := by
  rw [processCell_stage]
  have hwalk : ∀ (l : List String) (w : EState × List String × Nat),
      (l.foldl (walkStep d s) w).1.sched d' s' = w.1.sched d' s' := by
    intro l
    induction l with
    | nil => intro w; rfl
    | cons x t ih =>
      intro w
      rw [List.foldl_cons, ih, walkStep_sched_frame h]
  have hfin : ∀ (l : List String) (w : EState × List String × Nat),
      (l.foldl (finalStep d s) w).1.sched d' s' = w.1.sched d' s' := by
    intro l
    induction l with
    | nil => intro w; rfl
    | cons x t ih =>
      intro w
      rw [List.foldl_cons, ih, finalStep_sched_frame h]
  have hW : (cellWalk emps pref d s acc).1.sched d' s' = acc.1.sched d' s' := by
    unfold cellWalk
    rw [hwalk]
  unfold cellFinal
  split
  · rw [hfin, hW]
  · rw [hW]

theorem processDay_sched_frame {emps : List String}
    {pref : String → String → List String} {st : EState} {d : String}
    {d' s' : String} (h : d' ≠ d) :
    (processDay emps pref st d).sched d' s' = st.sched d' s' := by
  unfold processDay
  exact foldl_inv
    (P := fun t : EState × List String => t.1.sched d' s' = st.sched d' s')
    (F := processCell emps pref d)
    (fun a s _ hPa => by
      show (processCell emps pref d a s).1.sched d' s' = st.sched d' s'
      rw [processCell_sched_frame (fun hc => h hc.1)]
      exact hPa)
    rfl

theorem weekFold_sched_frame {emps : List String}
    {pref : String → String → List String} :
    ∀ (days : List String) (st : EState) (d s : String), d ∉ days →
      ((days.foldl (processDay emps pref) st).sched d s) = st.sched d s := by
  intro days
  induction days with
  | nil => intro st d s _; rfl
  | cons x t ih =>
    intro st d s hnot
    have hd : d ≠ x := fun h => hnot (h ▸ List.mem_cons_self x t)
    rw [List.foldl_cons, ih _ _ _ (fun hm => hnot (List.mem_cons_of_mem x hm)),
        processDay_sched_frame hd]

theorem processDay_final_mono {emps : List String}
    {pref : String → String → List String} {st : EState} {d : String}
    (h : st.usedFinal = true) :
    (processDay emps pref st d).usedFinal = true := by
  unfold processDay
  exact foldl_inv
    (P := fun t : EState × List String => t.1.usedFinal = true)
    (F := processCell emps pref d)
    (fun a s _ hPa => by
      show (processCell emps pref d a s).1.usedFinal = true
      exact processCell_final_mono hPa)
    h

theorem weekFold_final_mono {emps : List String}
    {pref : String → String → List String} :
    ∀ (days : List String) (st : EState), st.usedFinal = true →
      (days.foldl (processDay emps pref) st).usedFinal = true := by
  intro days
  induction days with
  | nil => intro st h; exact h
  | cons x t ih =>
    intro st h
    rw [List.foldl_cons]
    exact ih _ (processDay_final_mono h)

theorem processDay_eq (emps : List String)
    (pref : String → String → List String) (st : EState) (d : String) :
    processDay emps pref st d =
      (processCell emps pref d
        (processCell emps pref d
          (processCell emps pref d (st, ([] : List String)) "morning")
          "afternoon") "evening").1 := rfl

theorem dayEntries_congr {f g : String → String → List String} {d : String}
    (h : ∀ s, f d s = g d s) : dayEntries f d = dayEntries g d := by
  unfold dayEntries
  have : VALID_SHIFTS.map (f d) = VALID_SHIFTS.map (g d) :=
    List.map_congr_left (fun s _ => h s)
  rw [this]

theorem processDay_nodup {emps : List String}
    {pref : String → String → List String} {st : EState} {d : String}
    (hempty : ∀ s ∈ VALID_SHIFTS, st.sched d s = [])
    (hflag : (processDay emps pref st d).usedFinal = false) :
    (dayEntries (processDay emps pref st d).sched d).Nodup := by
  rw [processDay_eq] at hflag ⊢
  have h3 := hflag
  have h2 : (processCell emps pref d
      (processCell emps pref d (st, ([] : List String)) "morning")
      "afternoon").1.usedFinal = false := by
    by_contra hb
    rw [processCell_final_mono (bool_ne_false hb)] at h3
    exact Bool.noConfusion h3
  have h1 : (processCell emps pref d (st, ([] : List String))
      "morning").1.usedFinal = false := by
    by_contra hb
    rw [processCell_final_mono (bool_ne_false hb)] at h2
    exact Bool.noConfusion h2
  obtain ⟨f1, ht1, hn1, hdj1, hs1, hfr1, h01⟩ := processCell_no_final h1
  obtain ⟨f2, ht2, hn2, hdj2, hs2, hfr2, h02⟩ := processCell_no_final h2
  obtain ⟨f3, ht3, hn3, hdj3, hs3, hfr3, h03⟩ := processCell_no_final h3
  have heM := hempty "morning" (by decide)
  have heA := hempty "afternoon" (by decide)
  have heE := hempty "evening" (by decide)
  have hneMA : ¬ (d = d ∧ ("morning" : String) = "afternoon") :=
    fun hc => absurd hc.2 (by decide)
  have hneME : ¬ (d = d ∧ ("morning" : String) = "evening") :=
    fun hc => absurd hc.2 (by decide)
  have hneAE : ¬ (d = d ∧ ("afternoon" : String) = "evening") :=
    fun hc => absurd hc.2 (by decide)
  have hneAM : ¬ (d = d ∧ ("afternoon" : String) = "morning") :=
    fun hc => absurd hc.2 (by decide)
  have hneEM : ¬ (d = d ∧ ("evening" : String) = "morning") :=
    fun hc => absurd hc.2 (by decide)
  have hneEA : ¬ (d = d ∧ ("evening" : String) = "afternoon") :=
    fun hc => absurd hc.2 (by decide)
  have hM1 : (processCell emps pref d (st, ([] : List String))
      "morning").1.sched d "morning" = f1 := by
    rw [hs1]
    show st.sched d "morning" ++ f1 = f1
    rw [heM, List.nil_append]
  have hA2v : (processCell emps pref d
      (processCell emps pref d (st, ([] : List String)) "morning")
      "afternoon").1.sched d "afternoon" = f2 := by
    rw [hs2, hfr1 d "afternoon" hneAM]
    show st.sched d "afternoon" ++ f2 = f2
    rw [heA, List.nil_append]
  have hE3v : (processCell emps pref d
      (processCell emps pref d
        (processCell emps pref d (st, ([] : List String)) "morning")
        "afternoon") "evening").1.sched d "evening" = f3 := by
    rw [hs3, hfr2 d "evening" hneEA, hfr1 d "evening" hneEM]
    show st.sched d "evening" ++ f3 = f3
    rw [heE, List.nil_append]
  have hM3v : (processCell emps pref d
      (processCell emps pref d
        (processCell emps pref d (st, ([] : List String)) "morning")
        "afternoon") "evening").1.sched d "morning" = f1 := by
    rw [hfr3 d "morning" hneME, hfr2 d "morning" hneMA, hM1]
  have hA3v : (processCell emps pref d
      (processCell emps pref d
        (processCell emps pref d (st, ([] : List String)) "morning")
        "afternoon") "evening").1.sched d "afternoon" = f2 := by
    rw [hfr3 d "afternoon" hneAE, hA2v]
  have ht1v : (processCell emps pref d (st, ([] : List String))
      "morning").2 = f1 := by
    rw [ht1]
    show ([] : List String) ++ f1 = f1
    rw [List.nil_append]
  have ht2v : (processCell emps pref d
      (processCell emps pref d (st, ([] : List String)) "morning")
      "afternoon").2 = f1 ++ f2 := by
    rw [ht2, ht1v]
  have hdj2v : ∀ e ∈ f2, e ∉ f1 := fun e he => by
    have := hdj2 e he
    rwa [ht1v] at this
  have hdj3v : ∀ e ∈ f3, e ∉ f1 ++ f2 := fun e he => by
    have := hdj3 e he
    rwa [ht2v] at this
  have hDE : dayEntries (processCell emps pref d
      (processCell emps pref d
        (processCell emps pref d (st, ([] : List String)) "morning")
        "afternoon") "evening").1.sched d = f1 ++ (f2 ++ f3) := by
    unfold dayEntries
    rw [show VALID_SHIFTS = ["morning", "afternoon", "evening"] from rfl]
    rw [List.map_cons, List.map_cons, List.map_cons, List.map_nil]
    rw [List.flatten_cons, List.flatten_cons, List.flatten_cons, List.flatten_nil]
    rw [hM3v, hA3v, hE3v, List.append_nil]
  rw [hDE]
  refine List.nodup_append.mpr ⟨hn1, List.nodup_append.mpr ⟨hn2, hn3, ?_⟩, ?_⟩
  · intro a ha2 ha3
    exact hdj3v a ha3 (List.mem_append.mpr (Or.inr ha2))
  · intro a ha1 hmem
    rcases List.mem_append.mp hmem with h2m | h3m
    · exact hdj2v a h2m ha1
    · exact hdj3v a h3m (List.mem_append.mpr (Or.inl ha1))

theorem week_nodup {emps : List String}
    {pref : String → String → List String} :
    ∀ (days : List String) (st : EState), days.Nodup →
      (∀ d ∈ days, ∀ s ∈ VALID_SHIFTS, st.sched d s = []) →
      (days.foldl (processDay emps pref) st).usedFinal = false →
      ∀ d ∈ days,
        (dayEntries (days.foldl (processDay emps pref) st).sched d).Nodup := by
  intro days
  induction days with
  | nil => intro st _ _ _ d hd; cases hd
  | cons x t ih =>
    intro st hnd hempty hflag d hd
    rw [List.foldl_cons] at hflag ⊢
    have hx_nin : x ∉ t := (List.nodup_cons.mp hnd).1
    have hndt : t.Nodup := (List.nodup_cons.mp hnd).2
    have hst1flag : (processDay emps pref st x).usedFinal = false := by
      by_contra hb
      rw [weekFold_final_mono t _ (bool_ne_false hb)] at hflag
      exact Bool.noConfusion hflag
    rcases List.mem_cons.mp hd with rfl | hdt
    · have hsched_eq : ∀ s,
          (t.foldl (processDay emps pref) (processDay emps pref st d)).sched d s
            = (processDay emps pref st d).sched d s := fun s =>
        weekFold_sched_frame t _ d s hx_nin
      rw [dayEntries_congr hsched_eq]
      exact processDay_nodup (hempty d (List.mem_cons_self d t)) hst1flag
    · refine ih (processDay emps pref st x) hndt ?_ hflag d hdt
      intro d2 hd2 s hs
      have hne : d2 ≠ x := fun h => hx_nin (h ▸ hd2)
      rw [processDay_sched_frame hne]
      exact hempty d2 (List.mem_cons_of_mem x hd2) s hs

theorem mem_mkSchedule {f : String → String → List String}
    {p : String × List (String × List String)} (hp : p ∈ mkSchedule f) :
    ∃ d ∈ DAYS_OF_WEEK, p = (d, VALID_SHIFTS.map (fun s => (s, f d s))) := by
  unfold mkSchedule at hp
  obtain ⟨d, hd, heq⟩ := List.mem_map.mp hp
  exact ⟨d, hd, heq.symm⟩

theorem c3sched_eval : generate_schedule c3raw = .ok c3sched := by
  rfl

theorem c3flag_eval : runUsedFinal c3raw = false := by
  rfl

/-- Claim C4: on every accepted input for which the last-resort
fallback (the final `placed < 2` scan that ignores the assigned-today
set) never places anyone — the `usedFinal` ghost flag of the run's
final state stays `false` — no employee appears in more than one shift
list of the same day: each day row's concatenated shift lists in the
returned schedule are duplicate-free. -/
theorem daily_exclusivity (raw : PyVal)
    (sched : List (String × List (String × List String)))
    (hgen : generate_schedule raw = .ok sched)
    (hflag : runUsedFinal raw = false) :
    ∀ p ∈ sched, ((p.2.map Prod.snd).flatten).Nodup := by
  obtain ⟨st, hcore, rfl⟩ := generate_schedule_ok_elim hgen
  have hflag2 : st.usedFinal = false := by
    unfold runUsedFinal at hflag
    rw [hcore] at hflag
    exact hflag
  obtain ⟨norm, h1, h2, hst⟩ := coreResult_ok_elim hcore
  subst hst
  intro p hp
  obtain ⟨d, hd, rfl⟩ := mem_mkSchedule hp
  have hcomp : (Prod.snd ∘ fun s =>
      (s, (scheduleCore (norm.map Prod.fst) (prefLookup norm)).sched d s))
      = (scheduleCore (norm.map Prod.fst) (prefLookup norm)).sched d :=
    funext (fun s => rfl)
  show ((VALID_SHIFTS.map (fun s =>
      (s, (scheduleCore (norm.map Prod.fst) (prefLookup norm)).sched d s))).map
      Prod.snd).flatten.Nodup
  rw [List.map_map, hcomp]
  have hflag3 : (DAYS_OF_WEEK.foldl
      (processDay (norm.map Prod.fst) (prefLookup norm))
      ⟨fun _ _ => [], fun _ => 0, false, false⟩).usedFinal = false := hflag2
  exact week_nodup DAYS_OF_WEEK ⟨fun _ _ => [], fun _ => 0, false, false⟩
    (by decide) (fun _ _ _ _ => rfl) hflag3 d hd

theorem daily_exclusivity_witness :
    generate_schedule c3raw = .ok c3sched ∧ runUsedFinal c3raw = false ∧
    ∀ p ∈ c3sched, ((p.2.map Prod.snd).flatten).Nodup :=
  ⟨c3sched_eval, c3flag_eval,
    daily_exclusivity c3raw c3sched c3sched_eval c3flag_eval⟩

theorem length_filter_partition (p : String → Bool) :
    ∀ l : List String,
      (l.filter p).length + (l.filter (fun x => ! p x)).length = l.length := by
  intro l
  induction l with
  | nil => rfl
  | cons x t ih =>
    by_cases hx : p x
    · rw [List.filter_cons_of_pos hx, List.filter_cons_of_neg (by simp [hx])]
      simp only [List.length_cons]
      omega
    · rw [List.filter_cons_of_neg (by simpa using hx),
        List.filter_cons_of_pos (by simpa using hx)]
      simp only [List.length_cons]
      omega

theorem eligible_lower_bound {l t : List String} (hnd : l.Nodup) :
    l.length ≤ (l.filter (fun e => ! decide (e ∈ t))).length + t.length := by
  have h1 := length_filter_partition (fun e => decide (e ∈ t)) l
  have h2 : (l.filter (fun e => decide (e ∈ t))).length ≤ t.length := by
    refine List.Subperm.length_le ?_
    refine List.subperm_of_subset ?_ ?_
    · exact hnd.filter _
    · intro x hx
      have := (List.mem_filter.mp hx).2
      exact of_decide_eq_true this
  omega

theorem orderedCandidates_subset {emps : List String}
    {pref : String → String → List String} {st : EState} {today : List String}
    {d s e : String} (he : e ∈ orderedCandidates emps pref st today d s) :
    e ∈ emps := by
  unfold orderedCandidates at he
  obtain ⟨r, _, hm⟩ := List.mem_flatMap.mp he
  exact (List.mem_filter.mp (List.mem_filter.mp (mem_shuffle.mp hm)).1).1

theorem processCell_places_two {emps : List String}
    {pref : String → String → List String} {d : String}
    {acc : EState × List String} {s : String}
    (hnd : emps.Nodup)
    (helig : 2 ≤ (emps.filter
      (fun e => ! decide (acc.1.count e ≥ 5 ∨ e ∈ acc.2))).length) :
    ∃ fresh : List String,
      (processCell emps pref d acc s).1.sched d s = acc.1.sched d s ++ fresh ∧
      fresh.length = 2 ∧
      (∀ e ∈ fresh, e ∈ emps ∧ e ∉ acc.2 ∧ acc.1.count e < 5) ∧
      fresh.Nodup ∧
      (processCell emps pref d acc s).2 = acc.2 ++ fresh ∧
      (∀ e, (processCell emps pref d acc s).1.count e =
        acc.1.count e + (if e ∈ fresh then 1 else 0)) ∧
      (∀ d' s', ¬ (d' = d ∧ s' = s) →
        (processCell emps pref d acc s).1.sched d' s' = acc.1.sched d' s') := by
  rw [processCell_stage]
  obtain ⟨fresh, h1, h2, h3, h4, h5, h6, h7, h8, h9, h10, h11⟩ :=
    walk_spec d s (orderedCandidates emps pref acc.1 acc.2 d s) acc.1 acc.2 0
  have hWdef : cellWalk emps pref d s acc =
      (orderedCandidates emps pref acc.1 acc.2 d s).foldl (walkStep d s)
        (acc.1, acc.2, 0) := rfl
  rw [← hWdef] at h1 h2 h4 h5 h6 h7 h8 h9 h10
  -- the walk places exactly two
  have hplaced : (cellWalk emps pref d s acc).2.2 = 2 := by
    by_contra hne
    have hlt : (cellWalk emps pref d s acc).2.2 < 2 := by
      have := h9
      omega
    -- every eligible employee ends up in fresh
    have hsub : ∀ e ∈ emps.filter
        (fun e => ! decide (acc.1.count e ≥ 5 ∨ e ∈ acc.2)), e ∈ fresh := by
      intro e hef
      obtain ⟨hee, hcond⟩ := List.mem_filter.mp hef
      have hcond2 : ¬ (acc.1.count e ≥ 5 ∨ e ∈ acc.2) := by
        simpa using hcond
      push_neg at hcond2
      obtain ⟨hc5, hnt⟩ := hcond2
      have hord : e ∈ orderedCandidates emps pref acc.1 acc.2 d s :=
        mem_orderedCandidates hee (by omega) hnt
      rcases h10 hlt e hord with hge | htoday
      · by_cases hef2 : e ∈ fresh
        · exact hef2
        · rw [h4 e, if_neg hef2] at hge
          omega
      · rw [h1] at htoday
        rcases List.mem_append.mp htoday with hin | hin
        · exact absurd hin hnt
        · exact hin
    have hsp : (emps.filter
        (fun e => ! decide (acc.1.count e ≥ 5 ∨ e ∈ acc.2))).Subperm fresh :=
      List.subperm_of_subset (hnd.filter _) hsub
    have hle := List.Subperm.length_le hsp
    rw [h2] at hlt
    omega
  have hfl : fresh.length = 2 := by
    rw [h2] at hplaced
    omega
  -- the final fallback does not run
  have hnoop : cellFinal emps d s (cellWalk emps pref d s acc) =
      cellWalk emps pref d s acc := by
    unfold cellFinal
    rw [if_neg (by omega)]
  rw [hnoop]
  refine ⟨fresh, h5, hfl, ?_, h11, h1, h4, h6⟩
  intro e he
  obtain ⟨hord, hnt, hc5⟩ := h3 e he
  exact ⟨orderedCandidates_subset hord, hnt, hc5⟩

theorem step_elig {emps : List String} {c0 cj : String → Nat}
    {t : List String} {k : Nat}
    (hlen : 6 ≤ emps.length) (hnd : emps.Nodup) (hk : k ≤ 4)
    (hcnt : ∀ e ∈ emps, c0 e ≤ k)
    (hcj : ∀ e ∈ emps, e ∉ t → cj e = c0 e)
    (htlen : t.length ≤ 4) :
    2 ≤ (emps.filter (fun e => ! decide (cj e ≥ 5 ∨ e ∈ t))).length := by
  have hcongr : emps.filter (fun e => ! decide (cj e ≥ 5 ∨ e ∈ t))
      = emps.filter (fun e => ! decide (e ∈ t)) := by
    refine List.filter_congr ?_
    intro e he
    by_cases ht : e ∈ t
    · simp [ht]
    · have h0 := hcnt e he
      have hc := hcj e he ht
      simp [ht]
      omega
  rw [hcongr]
  have := eligible_lower_bound (t := t) hnd
  omega

theorem processDay_places {emps : List String}
    {pref : String → String → List String} {st : EState} {d : String} {k : Nat}
    (hnd : emps.Nodup) (hlen : 6 ≤ emps.length) (hk : k ≤ 4)
    (hcnt : ∀ e ∈ emps, st.count e ≤ k) :
    (∀ s ∈ VALID_SHIFTS, ∃ fresh,
      (processDay emps pref st d).sched d s = st.sched d s ++ fresh ∧
      fresh.length = 2) ∧
    (∀ e ∈ emps, (processDay emps pref st d).count e ≤ k + 1) := by
  have helig1 : 2 ≤ (emps.filter (fun e =>
      ! decide ((st, ([] : List String)).1.count e ≥ 5 ∨
        e ∈ (st, ([] : List String)).2))).length :=
    step_elig hlen hnd hk hcnt (fun e _ _ => rfl) (by simp)
  obtain ⟨f1, hs1, hl1, hm1, hn1, ht1, hc1, hf1⟩ :=
    @processCell_places_two emps pref d (st, ([] : List String)) "morning" hnd helig1
  have helig2 : 2 ≤ (emps.filter (fun e =>
      ! decide ((processCell emps pref d (st, ([] : List String))
        "morning").1.count e ≥ 5 ∨
        e ∈ (processCell emps pref d (st, ([] : List String))
          "morning").2))).length := by
    refine step_elig hlen hnd hk hcnt ?_ ?_
    · intro e _ hnt
      rw [hc1 e, if_neg (fun hf => hnt (by
        rw [ht1]
        exact List.mem_append.mpr (Or.inr hf)))]
      rfl
    · rw [ht1, List.nil_append, hl1]
      omega
  obtain ⟨f2, hs2, hl2, hm2, hn2, ht2, hc2, hf2⟩ :=
    @processCell_places_two emps pref d
      (processCell emps pref d (st, ([] : List String)) "morning")
      "afternoon" hnd helig2
  have helig3 : 2 ≤ (emps.filter (fun e =>
      ! decide ((processCell emps pref d
        (processCell emps pref d (st, ([] : List String)) "morning")
        "afternoon").1.count e ≥ 5 ∨
        e ∈ (processCell emps pref d
          (processCell emps pref d (st, ([] : List String)) "morning")
          "afternoon").2))).length := by
    refine step_elig hlen hnd hk hcnt ?_ ?_
    · intro e _ hnt
      have hnf2 : e ∉ f2 := fun hf => hnt (by
        rw [ht2]
        exact List.mem_append.mpr (Or.inr hf))
      have hnf1 : e ∉ f1 := fun hf => hnt (by
        rw [ht2, ht1]
        exact List.mem_append.mpr (Or.inl (List.mem_append.mpr (Or.inr hf))))
      rw [hc2 e, if_neg hnf2, hc1 e, if_neg hnf1]
      rfl
    · rw [ht2, ht1, List.nil_append, List.length_append, hl1, hl2]
  obtain ⟨f3, hs3, hl3, hm3, hn3, ht3, hc3, hf3⟩ :=
    @processCell_places_two emps pref d
      (processCell emps pref d
        (processCell emps pref d (st, ([] : List String)) "morning")
        "afternoon")
      "evening" hnd helig3
  have hneMA : ¬ (d = d ∧ ("morning" : String) = "afternoon") :=
    fun hc => absurd hc.2 (by decide)
  have hneME : ¬ (d = d ∧ ("morning" : String) = "evening") :=
    fun hc => absurd hc.2 (by decide)
  have hneAE : ¬ (d = d ∧ ("afternoon" : String) = "evening") :=
    fun hc => absurd hc.2 (by decide)
  have hneAM : ¬ (d = d ∧ ("afternoon" : String) = "morning") :=
    fun hc => absurd hc.2 (by decide)
  have hneEM : ¬ (d = d ∧ ("evening" : String) = "morning") :=
    fun hc => absurd hc.2 (by decide)
  have hneEA : ¬ (d = d ∧ ("evening" : String) = "afternoon") :=
    fun hc => absurd hc.2 (by decide)
  constructor
  · intro s hs
    fin_cases hs
    · refine ⟨f1, ?_, hl1⟩
      rw [processDay_eq, hf3 d "morning" hneME, hf2 d "morning" hneMA, hs1]
    · refine ⟨f2, ?_, hl2⟩
      rw [processDay_eq, hf3 d "afternoon" hneAE, hs2,
        hf1 d "afternoon" hneAM]
    · refine ⟨f3, ?_, hl3⟩
      rw [processDay_eq, hs3, hf2 d "evening" hneEA, hf1 d "evening" hneEM]
  · intro e he
    have hd21 : e ∈ f2 → e ∉ f1 := fun h2 h1 => (hm2 e h2).2.1 (by
      rw [ht1]
      exact List.mem_append.mpr (Or.inr h1))
    have hd31 : e ∈ f3 → e ∉ f1 := fun h3 h1 => (hm3 e h3).2.1 (by
      rw [ht2, ht1]
      exact List.mem_append.mpr (Or.inl (List.mem_append.mpr (Or.inr h1))))
    have hd32 : e ∈ f3 → e ∉ f2 := fun h3 h2 => (hm3 e h3).2.1 (by
      rw [ht2]
      exact List.mem_append.mpr (Or.inr h2))
    have h0 : (st, ([] : List String)).1.count e ≤ k := hcnt e he
    rw [processDay_eq, hc3 e, hc2 e, hc1 e]
    by_cases e1 : e ∈ f1
    · have ne2 : e ∉ f2 := fun h2 => hd21 h2 e1
      have ne3 : e ∉ f3 := fun h3 => hd31 h3 e1
      rw [if_pos e1, if_neg ne2, if_neg ne3]
      omega
    · by_cases e2 : e ∈ f2
      · have ne3 : e ∉ f3 := fun h3 => hd32 h3 e2
        rw [if_neg e1, if_pos e2, if_neg ne3]
        omega
      · by_cases e3 : e ∈ f3
        · rw [if_neg e1, if_neg e2, if_pos e3]
          omega
        · rw [if_neg e1, if_neg e2, if_neg e3]
          omega

theorem weekPrefix {emps : List String}
    {pref : String → String → List String}
    (hnd : emps.Nodup) (hlen : 6 ≤ emps.length) :
    ∀ (days : List String) (st : EState) (k : Nat),
      days.Nodup → k + days.length ≤ 5 →
      (∀ e ∈ emps, st.count e ≤ k) →
      ∀ d ∈ days, ∀ s ∈ VALID_SHIFTS,
        ((days.foldl (processDay emps pref) st).sched d s).length =
          (st.sched d s).length + 2 := by
  intro days
  induction days with
  | nil => intro st k _ _ _ d hd; cases hd
  | cons x t ih =>
    intro st k hdnd hk5 hcnt d hd s hs
    have hx_nin : x ∉ t := (List.nodup_cons.mp hdnd).1
    have hndt : t.Nodup := (List.nodup_cons.mp hdnd).2
    have hk4 : k ≤ 4 := by
      simp only [List.length_cons] at hk5
      omega
    rw [List.foldl_cons]
    obtain ⟨hcells, hcnt1⟩ :=
      @processDay_places emps pref st x k hnd hlen hk4 hcnt
    rcases List.mem_cons.mp hd with rfl | hdt
    · rw [weekFold_sched_frame t _ d s hx_nin]
      obtain ⟨fresh, hfr, hfl⟩ := hcells s hs
      rw [hfr, List.length_append, hfl]
    · have hk5t : (k + 1) + t.length ≤ 5 := by
        simp only [List.length_cons] at hk5
        omega
      rw [ih (processDay emps pref st x) (k + 1) hndt hk5t hcnt1 d hdt s hs,
        processDay_sched_frame (fun h => hx_nin (by rw [h] at hdt; exact hdt))]

/-- Claim C3 (corrected): every accepted input has at least 6 distinct
employees, and in the returned schedule every shift list of the first
five days (Monday through Friday) has at least two employees.  The
guarantee does not extend to Saturday and Sunday: the 5-day weekly cap
can leave the weekend lists empty. -/
theorem first_five_days_staffed (raw : PyVal)
    (sched : List (String × List (String × List String)))
    (hgen : generate_schedule raw = .ok sched) :
    ∀ p ∈ sched,
      p.1 ∈ ["Monday", "Tuesday", "Wednesday", "Thursday", "Friday"] →
      ∀ q ∈ p.2, 2 ≤ q.2.length := by
  obtain ⟨st, hcore, rfl⟩ := generate_schedule_ok_elim hgen
  obtain ⟨norm, h1, h2, hst⟩ := coreResult_ok_elim hcore
  subst hst
  intro p hp hfive q hq
  obtain ⟨d, hd, rfl⟩ := mem_mkSchedule hp
  obtain ⟨s, hs, rfl⟩ := List.mem_map.mp hq
  obtain ⟨kvs, names, hraw, hkeys, hnodL, hmap⟩ := collect_ok_elim h1
  have hkeq : (norm.map Prod.fst) = names := collect_keys_eq hmap hkeys
  have hnd : (norm.map Prod.fst).Nodup := by
    rw [hkeq]
    exact hnodL.of_map
  have hlen : 6 ≤ (norm.map Prod.fst).length := by omega
  have hfive2 : d ∈ ["Monday", "Tuesday", "Wednesday", "Thursday", "Friday"] :=
    hfive
  have hnotw : ∀ x ∈ ["Monday", "Tuesday", "Wednesday", "Thursday", "Friday"],
      x ∉ ["Saturday", "Sunday"] := by decide
  have hsplit : (scheduleCore (norm.map Prod.fst) (prefLookup norm)).sched d s
      = ((["Monday", "Tuesday", "Wednesday", "Thursday", "Friday"].foldl
          (processDay (norm.map Prod.fst) (prefLookup norm))
          ⟨fun _ _ => [], fun _ => 0, false, false⟩).sched d s) := by
    show (((["Monday", "Tuesday", "Wednesday", "Thursday", "Friday"] ++
        ["Saturday", "Sunday"]).foldl
        (processDay (norm.map Prod.fst) (prefLookup norm))
        ⟨fun _ _ => [], fun _ => 0, false, false⟩).sched d s) = _
    rw [List.foldl_append]
    exact weekFold_sched_frame _ _ d s (hnotw d hfive2)
  have hpre := @weekPrefix (norm.map Prod.fst) (prefLookup norm) hnd hlen
    ["Monday", "Tuesday", "Wednesday", "Thursday", "Friday"]
    ⟨fun _ _ => [], fun _ => 0, false, false⟩ 0
    (by decide) (by decide) (fun _ _ => Nat.le_refl 0) d hfive2 s hs
  show 2 ≤ ((scheduleCore (norm.map Prod.fst) (prefLookup norm)).sched d s).length
  rw [hsplit, hpre]
  omega

theorem first_five_days_staffed_witness :
    generate_schedule c3raw = .ok c3sched ∧
    ∀ p ∈ c3sched,
      p.1 ∈ ["Monday", "Tuesday", "Wednesday", "Thursday", "Friday"] →
      ∀ q ∈ p.2, 2 ≤ q.2.length :=
  ⟨c3sched_eval, first_five_days_staffed c3raw c3sched c3sched_eval⟩

theorem c3norm_eval : collect_employee_preferences c3raw = .ok c3norm := by
  rfl

theorem c2norm_eval : collect_employee_preferences c2raw = .ok c2norm := by
  rfl

theorem collect_values_length_three_valid_witness :
    collect_employee_preferences c3raw = .ok c3norm ∧
    ∀ p ∈ c3norm, ∀ q ∈ p.2, q.2.length = 3 ∧ ∀ x ∈ q.2, x ∈ VALID_SHIFTS :=
  ⟨c3norm_eval, collect_values_length_three_valid c3raw c3norm c3norm_eval⟩

theorem collect_keys_are_original_witness :
    collect_employee_preferences c3raw = .ok c3norm ∧
    c3raw = PyVal.pyDict c3kvs ∧
    c3kvs.map Prod.fst = c3norm.map (fun p => PyVal.pyStr p.1) :=
  ⟨c3norm_eval, rfl,
    collect_keys_are_original c3raw c3kvs c3norm c3norm_eval rfl⟩

theorem weekly_cap_witness :
    generate_schedule c3raw = .ok c3sched ∧
    ∀ e, (schedFlat c3sched).count e ≤ 5 :=
  ⟨c3sched_eval, weekly_cap c3raw c3sched c3sched_eval⟩

theorem string_pref_normalization_witness :
    collect_employee_preferences c2raw = .ok c2norm ∧
    lowerStrip "evening" = "evening" ∧ "evening" ∈ VALID_SHIFTS ∧
    ∃ dm, dictGet c2norm "bob" = some dm ∧
      dictGet dm "Monday" = some ("evening" ::
        VALID_SHIFTS.filter (fun o => o ≠ "evening")) := by
  refine ⟨c2norm_eval, rfl, by decide, ?_⟩
  have hdm : (DAYS_OF_WEEK.map
      (fun d2 => (PyVal.pyStr d2, PyVal.pyStr "evening"))).map Prod.fst
      = DAYS_OF_WEEK.map PyVal.pyStr := rfl
  have hinj : Function.Injective PyVal.pyStr := fun a b hab => by
    injection hab
  have hdnod : ((DAYS_OF_WEEK.map
      (fun d2 => (PyVal.pyStr d2, PyVal.pyStr "evening"))).map Prod.fst).Nodup := by
    rw [hdm]
    exact ((by decide : DAYS_OF_WEEK.Nodup)).map hinj
  refine string_pref_normalization
    [(PyVal.pyStr "bob", constDayMap (PyVal.pyStr "evening"))]
    (DAYS_OF_WEEK.map (fun d2 => (PyVal.pyStr d2, PyVal.pyStr "evening")))
    c2norm "bob" "evening" "Monday" "evening"
    c2norm_eval ?_ ?_ hdnod rfl (by decide)
  · exact List.mem_cons_self _ _
  · exact List.mem_cons_self _ _

end Scheduler
